import Mathlib

/-!
Verification of the maze engine of `src/demos/MazeGenerator.tsx`:
the seeded pseudo-random generator `createSeededRandom`, the recursive
backtracking generator `generateMaze`, the helpers `getUnvisitedNeighbors`,
`removeWall`, `countDeadEnds`, and the BFS shortest-path solver `findPath`.

Modelling conventions (shallow embedding of the TypeScript source):
* JavaScript 32-bit integer operations are modelled on `Nat` with explicit
  `% 2 ^ 32`; `x >>> k` on a value already reduced mod `2 ^ 32` is `x / 2 ^ k`,
  `Math.imul` is multiplication mod `2 ^ 32`, `^` is `Nat.xor`.
  `random()` returns `v / 2 ^ 32` for a 32-bit `v`, so
  `Math.floor(random() * n)` is the natural number `v * n / 2 ^ 32`
  (exact: both `v` and `v * n` fit a double for the sizes involved).
* The grid is a total function `(Nat × Nat) → Cell` addressed by `(x, y)`
  (the source array is `grid[y][x]`); every access performed by the source
  is bounds-checked there before use, except `grid[startY][startX]`, whose
  JavaScript semantics (indexing `undefined`, raising a TypeError when the
  grid is empty) is modelled by the explicit bounds test in `generateMaze`
  returning `Except.error JsError.typeError`.
* The `while (stack.length > 0)` loop is embedded as `2·size² + 1`
  applications of the loop body `mazeStep` (the body is the identity once the
  stack is empty); the theorem for claim C8 proves the stack is empty by
  then, so this equals the source loop.
* The BFS `while (queue.length > 0)` loop and the predecessor-reconstruction
  loop are likewise fuelled; the fuel is proved sufficient on every input on
  which the source loop terminates and is reached by the proofs below.
* The JS `Map` keyed by the strings `"x,y"` (injective on pairs of naturals)
  is an association list keyed by the pair itself; `set` is only ever called
  on absent keys, hence modelled by cons.
-/

namespace Maze

/-! ## Seeded random number generator (`createSeededRandom`, lines 44-51) -/

/-- Reduce a JavaScript integer to its 32-bit pattern (`ToUint32`). -/
def toUint32 (x : Int) : Nat := (x % (2 ^ 32 : Int)).toNat

/-- `Math.imul`: 32-bit multiplication (bit pattern of the int32 result). -/
def imul32 (a b : Nat) : Nat := a * b % 2 ^ 32

/-- One update of the closure state `s`:
`s = Math.imul(s ^ (s >>> 16), 0x85ebca6b); s = Math.imul(s ^ (s >>> 13), 0xc2b2ae35)`. -/
def mix (s : Nat) : Nat :=
  let s1 := imul32 (Nat.xor s (s / 2 ^ 16)) 0x85ebca6b
  imul32 (Nat.xor s1 (s1 / 2 ^ 13)) 0xc2b2ae35

/-- The 32-bit numerator of the value returned by one call:
`(s ^ (s >>> 16)) >>> 0` applied to the updated state. -/
def out32 (s : Nat) : Nat := Nat.xor s (s / 2 ^ 16)

/-- One call of the generator closure: new state `mix s`, returned numerator
`out32 (mix s)` (the JS call returns `out32 (mix s) / 2^32`). -/
def nextRandom (s : Nat) : Nat × Nat := (out32 (mix s), mix s)

/-- `Math.floor(random() * n)` together with the updated generator state. -/
def randFloor (n : Nat) (s : Nat) : Nat × Nat :=
  (out32 (mix s) * n / 2 ^ 32, mix s)

/-- Generator state after `k` calls of the closure created on `seed`. -/
def streamState (seed : Int) (k : Nat) : Nat := mix^[k] (toUint32 seed)

/-- 32-bit numerator produced by the `k`-th call (0-based) of the closure. -/
def drawOut (seed : Int) (k : Nat) : Nat := out32 (streamState seed (k + 1))

/-- `Math.floor(random() * n)` for the `k`-th call of the closure. -/
def scaledDraw (n : Nat) (seed : Int) (k : Nat) : Nat := drawOut seed k * n / 2 ^ 32

/-! ## Cells and the grid (lines 7-19, 57-69) -/

/-- The four wall flags of a cell. -/
structure Walls where
  north : Bool
  south : Bool
  east : Bool
  west : Bool
deriving DecidableEq

/-- A cell: wall flags plus the `visited` marker used during generation.
The source also stores the coordinates `x`, `y` in the cell; here a cell is
identified by its coordinate, the argument of the grid function. -/
structure Cell where
  walls : Walls
  visited : Bool
deriving DecidableEq

/-- The grid, addressed by `(x, y)` (the source array is `grid[y][x]`). -/
def MazeGrid : Type := Nat × Nat → Cell

/-- Freshly initialized cell: all four walls present, not visited. -/
def initCell : Cell := ⟨⟨true, true, true, true⟩, false⟩

/-- The freshly initialized grid (lines 58-69). -/
def initGrid : MazeGrid := fun _ => initCell

/-- Write one cell of the grid. -/
def setCell (g : MazeGrid) (p : Nat × Nat) (c : Cell) : MazeGrid :=
  fun q => if q = p then c else g q

/-- `cell.visited = true`. -/
def markVisited (g : MazeGrid) (p : Nat × Nat) : MazeGrid :=
  setCell g p { g p with visited := true }

/-- `p` lies on the `n × n` grid. -/
def inBounds (n : Nat) (p : Nat × Nat) : Prop := p.1 < n ∧ p.2 < n

instance (n : Nat) (p : Nat × Nat) : Decidable (inBounds n p) :=
  inferInstanceAs (Decidable (_ ∧ _))

/-! ## `removeWall` (lines 124-141) -/

def clearEast (c : Cell) : Cell := { c with walls := { c.walls with east := false } }
def clearWest (c : Cell) : Cell := { c with walls := { c.walls with west := false } }
def clearSouth (c : Cell) : Cell := { c with walls := { c.walls with south := false } }
def clearNorth (c : Cell) : Cell := { c with walls := { c.walls with north := false } }

/-- `removeWall(current, next)`: branches on `dx = next.x - current.x` and
`dy = next.y - current.y` and clears the matching flag on both cells. -/
def removeWall (g : MazeGrid) (current next : Nat × Nat) : MazeGrid :=
  let dx : Int := (next.1 : Int) - (current.1 : Int)
  let dy : Int := (next.2 : Int) - (current.2 : Int)
  if dx = 1 then
    let g1 := setCell g current (clearEast (g current))
    setCell g1 next (clearWest (g1 next))
  else if dx = -1 then
    let g1 := setCell g current (clearWest (g current))
    setCell g1 next (clearEast (g1 next))
  else if dy = 1 then
    let g1 := setCell g current (clearSouth (g current))
    setCell g1 next (clearNorth (g1 next))
  else if dy = -1 then
    let g1 := setCell g current (clearNorth (g current))
    setCell g1 next (clearSouth (g1 next))
  else g

/-! ## `getUnvisitedNeighbors` (lines 112-122) -/

/-- The bounds-checked neighbour candidates of a cell, in the source's fixed
order north `(x, y-1)`, south `(x, y+1)`, east `(x+1, y)`, west `(x-1, y)`. -/
def gridNeighbors (n : Nat) (p : Nat × Nat) : List (Nat × Nat) :=
  (if 0 < p.2 then [(p.1, p.2 - 1)] else []) ++
    (if p.2 < n - 1 then [(p.1, p.2 + 1)] else []) ++
      (if p.1 < n - 1 then [(p.1 + 1, p.2)] else []) ++
        (if 0 < p.1 then [(p.1 - 1, p.2)] else [])

/-- `getUnvisitedNeighbors(cell, grid, size)`: the same four candidates,
each kept only when in range and not yet visited. -/
def getUnvisitedNeighbors (g : MazeGrid) (n : Nat) (p : Nat × Nat) : List (Nat × Nat) :=
  (if 0 < p.2 ∧ ¬(g (p.1, p.2 - 1)).visited = true then [(p.1, p.2 - 1)] else []) ++
    (if p.2 < n - 1 ∧ ¬(g (p.1, p.2 + 1)).visited = true then [(p.1, p.2 + 1)] else []) ++
      (if p.1 < n - 1 ∧ ¬(g (p.1 + 1, p.2)).visited = true then [(p.1 + 1, p.2)] else []) ++
        (if 0 < p.1 ∧ ¬(g (p.1 - 1, p.2)).visited = true then [(p.1 - 1, p.2)] else [])

/-! ## The generation walk (lines 77-99) -/

/-- State of the `while (stack.length > 0)` loop: the grid, the explicit
stack (head = top of stack), and the RNG closure state. -/
structure GenState where
  grid : MazeGrid
  stack : List (Nat × Nat)
  rng : Nat

/-- One iteration of the generation loop.  On an empty stack (loop exited)
this is the identity.  Otherwise: inspect the top of stack; if it has
unvisited neighbours, draw one (`neighbors[Math.floor(random() * length)]`),
remove the shared wall, mark it visited and push it; else pop. -/
def mazeStep (n : Nat) (st : GenState) : GenState :=
  match st.stack with
  | [] => st
  | current :: rest =>
    let neighbors := getUnvisitedNeighbors st.grid n current
    if 0 < neighbors.length then
      let s' := mix st.rng
      let next := neighbors.getD (out32 s' * neighbors.length / 2 ^ 32) (0, 0)
      { grid := markVisited (removeWall st.grid current next) next
        stack := next :: st.stack
        rng := s' }
    else
      { st with stack := rest }

/-! ## `countDeadEnds` (lines 143-154) -/

/-- Number of wall flags set on a cell. -/
def wallCount (c : Cell) : Nat :=
  ([c.walls.north, c.walls.south, c.walls.east, c.walls.west].filter (fun w => w)).length

/-- `countDeadEnds(grid, size)`: cells whose wall count is exactly 3,
counted row by row as in the source's double loop. -/
def countDeadEnds (g : MazeGrid) (n : Nat) : Nat :=
  ((List.range n).map
    (fun y => ((List.range n).filter (fun x => wallCount (g (x, y)) = 3)).length)).sum

/-! ## `findPath` (lines 156-213): BFS with a predecessor map -/

/-- A BFS queue entry `{ x, y, dist }`. -/
structure BfsNode where
  x : Nat
  y : Nat
  dist : Nat
deriving DecidableEq

/-- The `visited` JS `Map`: keys are coordinates (the source's `"x,y"`
strings, injective on pairs), values are the predecessor coordinate or
`none` for the start's `null`. -/
def VisMap : Type := List ((Nat × Nat) × Option (Nat × Nat))

/-- `Map.get`, as lookup in the association list. -/
def lookupV (m : VisMap) (k : Nat × Nat) : Option (Option (Nat × Nat)) :=
  match m with
  | [] => none
  | (k', v) :: rest => if k = k' then some v else lookupV rest k

/-- Length of the association list (`Map.size`): used as reconstruction fuel. -/
def sizeV (m : VisMap) : Nat :=
  match m with
  | [] => 0
  | _ :: rest => sizeV rest + 1

/-- One conditional `visited.set` + `queue.push` of the BFS frontier
expansion: performed when the wall/bounds condition holds and the key is
absent from the map. -/
def bfsPush (cur target : Nat × Nat) (dist : Nat) (cond : Prop) [Decidable cond]
    (qm : List BfsNode × VisMap) : List BfsNode × VisMap :=
  if cond ∧ lookupV qm.2 target = none then
    (qm.1 ++ [⟨target.1, target.2, dist + 1⟩], (target, some cur) :: qm.2)
  else qm

/-- The four direction checks of the dequeued cell `(x, y)` in source order
north, south, east, west (lines 182-209).  The south/east bounds use
`size - 1` for the source's `grid.length - 1` / `grid[0].length - 1`. -/
def bfsExpand (g : MazeGrid) (n : Nat) (x y dist : Nat)
    (q : List BfsNode) (m : VisMap) : List BfsNode × VisMap :=
  let cell := g (x, y)
  let qm := (q, m)
  let qm := bfsPush (x, y) (x, y - 1) dist (cell.walls.north = false ∧ 0 < y) qm
  let qm := bfsPush (x, y) (x, y + 1) dist (cell.walls.south = false ∧ y < n - 1) qm
  let qm := bfsPush (x, y) (x + 1, y) dist (cell.walls.east = false ∧ x < n - 1) qm
  let qm := bfsPush (x, y) (x - 1, y) dist (cell.walls.west = false ∧ 0 < x) qm
  qm

/-- Path reconstruction (lines 166-176): follow predecessors from the end
cell, prepending each coordinate; `visited.get(key) || null` stops at the
start (`null` predecessor) or a missing key.  The source loop is unbounded;
here it is fuelled with `sizeV m + 1`, proved sufficient for every map the
BFS can build. -/
def reconstruct (m : VisMap) : Nat × Nat → Nat → List (Nat × Nat)
  | _, 0 => []
  | p, fuel + 1 =>
    match lookupV m p with
    | some (some q) => reconstruct m q fuel ++ [p]
    | _ => [p]

/-- The BFS `while (queue.length > 0)` loop (lines 162-210), fuelled.
`queue.shift()` is the head, pushes go to the back. -/
def bfsLoop (g : MazeGrid) (n endX endY : Nat) :
    Nat → List BfsNode → VisMap → List (Nat × Nat)
  | 0, _, _ => []
  | _ + 1, [], _ => []
  | fuel + 1, node :: rest, m =>
    if node.x = endX ∧ node.y = endY then
      reconstruct m (node.x, node.y) (sizeV m + 1)
    else
      let qm := bfsExpand g n node.x node.y node.dist rest m
      bfsLoop g n endX endY fuel qm.1 qm.2

/-- `findPath(grid, startX, startY, endX, endY)`; `n` is the grid size
(`grid.length = grid[0].length = n` for every grid the source builds). -/
def findPath (g : MazeGrid) (n sx sy ex ey : Nat) : List (Nat × Nat) :=
  bfsLoop g n ex ey (n * n + 1) [⟨sx, sy, 0⟩] [((sx, sy), none)]

/-! ## `generateMaze` (lines 54-110) -/

/-- Failure conditions of a maze-engine call.  `invalidArgument` is the
explicit size-validation condition the specification prescribes (the source
contains no such check and never produces it); `typeError` is the JavaScript
TypeError raised by `grid[startY][startX]` when the grid has no such row or
cell (the only failure the source can actually produce, on `size ≤ 0`). -/
inductive JsError where
  | invalidArgument
  | typeError
deriving DecidableEq

/-- The record assembled from the component state set at lines 105-109. -/
structure MazeResult where
  maze : MazeGrid
  startPos : Nat × Nat
  endPos : Nat × Nat
  solutionPath : List (Nat × Nat)
  deadEnds : Nat
  pathLength : Nat

/-- `generateMaze(size, seedValue)`.  Draw order as in the source: start-x,
start-y, end-x, end-y (lines 72-75), then the walk.  The walk is the loop
body iterated `2·size² + 1` times (sufficient: see the claim C8 theorem). -/
def generateMaze (size : Nat) (seedValue : Int) : Except JsError MazeResult :=
  let r0 := toUint32 seedValue
  let d1 := randFloor size r0
  let d2 := randFloor size d1.2
  let d3 := randFloor size d2.2
  let d4 := randFloor size d3.2
  let startX := d1.1
  let startY := d2.1
  let endX := d3.1
  let endY := d4.1
  if startY < size ∧ startX < size then
    let st0 : GenState :=
      ⟨markVisited initGrid (startX, startY), [(startX, startY)], d4.2⟩
    let stF := (mazeStep size)^[2 * size * size + 1] st0
    let deadEnds := countDeadEnds stF.grid size
    let path := findPath stF.grid size startX startY endX endY
    .ok ⟨stF.grid, (startX, startY), (endX, endY), path, deadEnds, path.length⟩
  else
    .error .typeError

/-- The state entering the generation loop, in terms of the draw stream. -/
def initialWalkState (n : Nat) (seed : Int) : GenState :=
  ⟨markVisited initGrid (scaledDraw n seed 0, scaledDraw n seed 1),
    [(scaledDraw n seed 0, scaledDraw n seed 1)],
    streamState seed 4⟩

/-- The walk state after `k` iterations of the loop body. -/
def walkStates (n : Nat) (seed : Int) (k : Nat) : GenState :=
  (mazeStep n)^[k] (initialWalkState n seed)

/-! ## Derived notions used by the claims -/

/-- `(x+1, y)`. -/
def rightOf (p : Nat × Nat) : Nat × Nat := (p.1 + 1, p.2)

/-- `(x, y+1)`. -/
def downOf (p : Nat × Nat) : Nat × Nat := (p.1, p.2 + 1)

/-- The shared wall of the horizontal edge `(x,y) — (x+1,y)` is removed
(both redundant flags cleared). -/
def edgeOpenH (g : MazeGrid) (p : Nat × Nat) : Prop :=
  (g p).walls.east = false ∧ (g (rightOf p)).walls.west = false

/-- The shared wall of the vertical edge `(x,y) — (x,y+1)` is removed. -/
def edgeOpenV (g : MazeGrid) (p : Nat × Nat) : Prop :=
  (g p).walls.south = false ∧ (g (downOf p)).walls.north = false

instance (g : MazeGrid) (p : Nat × Nat) : Decidable (edgeOpenH g p) :=
  inferInstanceAs (Decidable (_ ∧ _))

instance (g : MazeGrid) (p : Nat × Nat) : Decidable (edgeOpenV g p) :=
  inferInstanceAs (Decidable (_ ∧ _))

/-- Number of open edges of the `n × n` grid: adjacent pairs whose shared
wall is removed, each counted once at its left/top endpoint. -/
def openEdgeCount (g : MazeGrid) (n : Nat) : Nat :=
  ((Finset.range n ×ˢ Finset.range n).filter
      (fun p => p.1 + 1 < n ∧ edgeOpenH g p)).card +
    ((Finset.range n ×ˢ Finset.range n).filter
      (fun p => p.2 + 1 < n ∧ edgeOpenV g p)).card

/-- Number of visited cells of the `n × n` grid. -/
def visitedCount (g : MazeGrid) (n : Nat) : Nat :=
  ((Finset.range n ×ˢ Finset.range n).filter (fun p => (g p).visited = true)).card

/-- Two cells are open-adjacent: orthogonal neighbours with the shared wall
removed (symmetric by construction). -/
def openAdj (g : MazeGrid) (p q : Nat × Nat) : Prop :=
  (q = rightOf p ∧ edgeOpenH g p) ∨ (p = rightOf q ∧ edgeOpenH g q) ∨
    (q = downOf p ∧ edgeOpenV g p) ∨ (p = downOf q ∧ edgeOpenV g q)

/-- One BFS move from `p` to `q`: exactly the wall/bounds conditions the
solver checks on the dequeued cell (lines 182-209). -/
def openStep (g : MazeGrid) (n : Nat) (p q : Nat × Nat) : Prop :=
  ((g p).walls.north = false ∧ 0 < p.2 ∧ q = (p.1, p.2 - 1)) ∨
    ((g p).walls.south = false ∧ p.2 < n - 1 ∧ q = (p.1, p.2 + 1)) ∨
      ((g p).walls.east = false ∧ p.1 < n - 1 ∧ q = (p.1 + 1, p.2)) ∨
        ((g p).walls.west = false ∧ 0 < p.1 ∧ q = (p.1 - 1, p.2))

instance (g : MazeGrid) (n : Nat) (p q : Nat × Nat) : Decidable (openStep g n p q) :=
  inferInstanceAs (Decidable (_ ∨ _))

/-- A walkable route for the solver: a nonempty list of coordinates from
`a` to `b` whose consecutive pairs are BFS moves. -/
def PathTo (g : MazeGrid) (n : Nat) (a b : Nat × Nat) (l : List (Nat × Nat)) : Prop :=
  l.head? = some a ∧ l.getLast? = some b ∧ List.Chain' (openStep g n) l

/-- Both redundant flags of every shared wall agree (walls are edge
properties stored on both endpoints). -/
def wallSym (g : MazeGrid) : Prop :=
  ∀ x y : Nat,
    (g (x, y)).walls.east = (g (x + 1, y)).walls.west ∧
      (g (x, y)).walls.south = (g (x, y + 1)).walls.north

/-- Orthogonal adjacency of two cells (the situations `removeWall` handles). -/
def orthAdjacent (p q : Nat × Nat) : Prop :=
  q = rightOf p ∨ p = rightOf q ∨ q = downOf p ∨ p = downOf q

instance (p q : Nat × Nat) : Decidable (orthAdjacent p q) :=
  inferInstanceAs (Decidable (_ ∨ _))

/-- The loop iteration `k` is an advance (top of stack has an unvisited
neighbour): it draws once, removes one wall, marks one cell visited. -/
def isAdvance (n : Nat) (st : GenState) : Prop :=
  match st.stack with
  | [] => False
  | current :: _ => 0 < (getUnvisitedNeighbors st.grid n current).length

instance (n : Nat) (st : GenState) : Decidable (isAdvance n st) := by
  unfold isAdvance
  cases st.stack
  · exact inferInstanceAs (Decidable False)
  · exact inferInstanceAs (Decidable (_ < _))

/-- The loop iteration is a backtrack (nonempty stack, no unvisited
neighbour): it pops the stack. -/
def isBacktrack (n : Nat) (st : GenState) : Prop :=
  match st.stack with
  | [] => False
  | current :: _ => ¬0 < (getUnvisitedNeighbors st.grid n current).length

instance (n : Nat) (st : GenState) : Decidable (isBacktrack n st) := by
  unfold isBacktrack
  cases st.stack
  · exact inferInstanceAs (Decidable False)
  · exact inferInstanceAs (Decidable ¬_)

/-- Number of advance iterations among the first `k` of the walk. -/
def advanceCount (n : Nat) (seed : Int) (k : Nat) : Nat :=
  ∑ i ∈ Finset.range k, if isAdvance n (walkStates n seed i) then 1 else 0

/-- Number of backtrack iterations among the first `k` of the walk. -/
def backtrackCount (n : Nat) (seed : Int) (k : Nat) : Nat :=
  ∑ i ∈ Finset.range k, if isBacktrack n (walkStates n seed i) then 1 else 0

/-- `Except.ok`-test used by concrete witnesses. -/
def isOkResult (r : Except JsError MazeResult) : Bool :=
  match r with
  | .ok _ => true
  | .error _ => false

/-- The error of a failed call, if any (used by concrete witnesses, since a
`MazeResult` contains the grid function and has no decidable equality). -/
def errorOf (r : Except JsError MazeResult) : Option JsError :=
  match r with
  | .ok _ => none
  | .error e => some e

/-- The grid produced by the completed walk. -/
def finalWalkGrid (n : Nat) (seed : Int) : MazeGrid :=
  (walkStates n seed (2 * n * n + 1)).grid

/-- The grid after one advance of the walk: remove the shared wall between
`cur` and `next`, then mark `next` visited (lines 92-94). -/
def advGrid (g : MazeGrid) (cur next : Nat × Nat) : MazeGrid :=
  markVisited (removeWall g cur next) next

/-- Termination measure of the generation loop: twice the number of
unvisited cells plus the stack height. -/
def walkMeasure (n : Nat) (st : GenState) : Nat :=
  2 * (n * n - visitedCount st.grid n) + st.stack.length

/-- Invariant on wall flags during generation: an absent flag always belongs
to an in-range edge between two visited cells whose twin flag is absent too. -/
structure WallInv (n : Nat) (g : MazeGrid) : Prop where
  eastOpen : ∀ p : Nat × Nat, (g p).walls.east = false →
    p.1 + 1 < n ∧ p.2 < n ∧ (g (rightOf p)).walls.west = false ∧
      (g p).visited = true ∧ (g (rightOf p)).visited = true
  westOpen : ∀ p : Nat × Nat, (g p).walls.west = false →
    0 < p.1 ∧ (g (p.1 - 1, p.2)).walls.east = false
  southOpen : ∀ p : Nat × Nat, (g p).walls.south = false →
    p.2 + 1 < n ∧ p.1 < n ∧ (g (downOf p)).walls.north = false ∧
      (g p).visited = true ∧ (g (downOf p)).visited = true
  northOpen : ∀ p : Nat × Nat, (g p).walls.north = false →
    0 < p.2 ∧ (g (p.1, p.2 - 1)).walls.south = false

/-- The full invariant of the generation loop, for start cell `s0`. -/
structure WalkInv (n : Nat) (s0 : Nat × Nat) (st : GenState) : Prop where
  vbound : ∀ p, (st.grid p).visited = true → inBounds n p
  startVis : (st.grid s0).visited = true
  stackVis : ∀ p ∈ st.stack, (st.grid p).visited = true
  stackNodup : st.stack.Nodup
  walls : WallInv n st.grid
  edges : openEdgeCount st.grid n + 1 = visitedCount st.grid n
  reach : ∀ p, (st.grid p).visited = true →
    Relation.ReflTransGen (openAdj st.grid) s0 p
  offStack : ∀ p, (st.grid p).visited = true → p ∉ st.stack →
    ∀ q ∈ gridNeighbors n p, (st.grid q).visited = true

/-- Coordinates of the entries of a BFS queue. -/
def queueCoords (q : List BfsNode) : List (Nat × Nat) :=
  q.map (fun nd => (nd.x, nd.y))

/-- Keys of the predecessor map. -/
def keysOf (m : VisMap) : List (Nat × Nat) := m.map Prod.fst

/-- A predecessor chain of length `j` in the map `m` from the root `s`
(whose stored predecessor is `null`) to `k`, each link a BFS move. -/
inductive Traces (g : MazeGrid) (n : Nat) (m : VisMap) (s : Nat × Nat) :
    Nat × Nat → Nat → Prop where
  | base : lookupV m s = some none → Traces g n m s s 0
  | step : ∀ k p j, lookupV m k = some (some p) → Traces g n m s p j →
      openStep g n p k → Traces g n m s k (j + 1)

/-- Result of one conditional frontier push: unchanged, or one fresh
coordinate reachable from `p` appended with distance `d + 1`. -/
def PushOut (g : MazeGrid) (n : Nat) (p : Nat × Nat) (d : Nat)
    (qm qm' : List BfsNode × VisMap) : Prop :=
  qm' = qm ∨
    ∃ t : Nat × Nat, openStep g n p t ∧ lookupV qm.2 t = none ∧
      qm' = (qm.1 ++ [⟨t.1, t.2, d + 1⟩], (t, some p) :: qm.2)

/-- A sequence of conditional frontier pushes. -/
inductive Pushes (g : MazeGrid) (n : Nat) (p : Nat × Nat) (d : Nat) :
    (List BfsNode × VisMap) → (List BfsNode × VisMap) → Prop where
  | refl : ∀ qm, Pushes g n p d qm qm
  | step : ∀ qm₁ qm₂ qm₃, PushOut g n p d qm₁ qm₂ → Pushes g n p d qm₂ qm₃ →
      Pushes g n p d qm₁ qm₃

/-- Invariant of the BFS loop used for completeness (claim C4): the map
keys are distinct in-range coordinates, queued coordinates are keys, fully
expanded keys have all their BFS successors in the map, and the end cell,
once a key, is still queued (otherwise the loop would have returned). -/
structure BfsReach (g : MazeGrid) (n ex ey : Nat)
    (queue : List BfsNode) (m : VisMap) : Prop where
  keysNodup : (keysOf m).Nodup
  keysBound : ∀ k ∈ keysOf m, inBounds n k
  queueKeys : ∀ nd ∈ queue, (lookupV m (nd.x, nd.y)).isSome = true
  expandedClosed : ∀ k, (lookupV m k).isSome = true → k ∉ queueCoords queue →
    ∀ t, openStep g n k t → (lookupV m t).isSome = true
  endPending : (lookupV m (ex, ey)).isSome = true → (ex, ey) ∈ queueCoords queue

/-- Invariant of the BFS loop used for soundness and minimality (claim C5),
for start cell `s`.  `sorted` is the breadth-first layering: the queue is a
block at distance `d` followed by a block at `d + 1`, every vertex with a
route of at most `d` cells is already expanded, and every vertex with a
route of at most `d + 1` cells is already a key. -/
structure BfsSound (g : MazeGrid) (n : Nat) (s : Nat × Nat)
    (queue : List BfsNode) (m : VisMap) : Prop where
  keysNodup : (keysOf m).Nodup
  startKey : lookupV m s = some none
  rootUnique : ∀ k, lookupV m k = some none → k = s
  predsKeys : ∀ k p, lookupV m k = some (some p) → lookupV m p ≠ none
  chainEx : ∀ k, lookupV m k ≠ none →
    ∃ j, Traces g n m s k j ∧ j + 1 ≤ sizeV m
  chainMin : ∀ k j, Traces g n m s k j →
    ∀ l, PathTo g n s k l → j + 1 ≤ l.length
  queueChain : ∀ nd ∈ queue, Traces g n m s (nd.x, nd.y) nd.dist
  queueNodup : (queueCoords queue).Nodup
  expandedClosed : ∀ k, lookupV m k ≠ none → k ∉ queueCoords queue →
    ∀ t, openStep g n k t → lookupV m t ≠ none
  sorted : ∃ d q1 q2, queue = q1 ++ q2 ∧ (∀ nd ∈ q1, nd.dist = d) ∧
    (∀ nd ∈ q2, nd.dist = d + 1) ∧
    (∀ v l, PathTo g n s v l → l.length ≤ d →
      lookupV m v ≠ none ∧ v ∉ queueCoords queue) ∧
    ∀ v l, PathTo g n s v l → l.length ≤ d + 1 → lookupV m v ≠ none

/-- The result of a successful `generateMaze size seed` call, expressed
through the draw stream and the iterated loop body. -/
def genResult (n : Nat) (seed : Int) : MazeResult :=
  ⟨finalWalkGrid n seed,
    (scaledDraw n seed 0, scaledDraw n seed 1),
    (scaledDraw n seed 2, scaledDraw n seed 3),
    findPath (finalWalkGrid n seed) n (scaledDraw n seed 0) (scaledDraw n seed 1)
      (scaledDraw n seed 2) (scaledDraw n seed 3),
    countDeadEnds (finalWalkGrid n seed) n,
    (findPath (finalWalkGrid n seed) n (scaledDraw n seed 0) (scaledDraw n seed 1)
      (scaledDraw n seed 2) (scaledDraw n seed 3)).length⟩

end Maze

namespace Maze

/-! # Basic lemmas about the generator stream -/

theorem streamState_zero (seed : Int) : streamState seed 0 = toUint32 seed := rfl

theorem streamState_succ (seed : Int) (k : Nat) :
    streamState seed (k + 1) = mix (streamState seed k) :=
  Function.iterate_succ_apply' mix k (toUint32 seed)

theorem randFloor_stream (n : Nat) (seed : Int) (k : Nat) :
    randFloor n (streamState seed k) = (scaledDraw n seed k, streamState seed (k + 1)) := by
  unfold randFloor scaledDraw drawOut
  rw [streamState_succ]

theorem mix_lt (s : Nat) : mix s < 2 ^ 32 := by
  unfold mix imul32
  exact Nat.mod_lt _ (by norm_num)

theorem out32_lt {s : Nat} (h : s < 2 ^ 32) : out32 s < 2 ^ 32 := by
  unfold out32
  exact Nat.xor_lt_two_pow h (lt_of_le_of_lt (Nat.div_le_self _ _) h)

theorem drawOut_lt (seed : Int) (k : Nat) : drawOut seed k < 2 ^ 32 := by
  unfold drawOut
  rw [streamState_succ]
  exact out32_lt (mix_lt _)

theorem scaledDraw_lt {n : Nat} (h : 0 < n) (seed : Int) (k : Nat) :
    scaledDraw n seed k < n := by
  unfold scaledDraw
  rw [Nat.div_lt_iff_lt_mul (by norm_num : 0 < 2 ^ 32)]
  calc drawOut seed k * n < 2 ^ 32 * n :=
        (Nat.mul_lt_mul_right h).mpr (drawOut_lt seed k)
    _ = n * 2 ^ 32 := Nat.mul_comm _ _

/-! # Basic lemmas about the grid -/

theorem setCell_same (g : MazeGrid) (p : Nat × Nat) (c : Cell) : setCell g p c p = c := by
  simp [setCell]

theorem setCell_other (g : MazeGrid) (p : Nat × Nat) (c : Cell) {q : Nat × Nat}
    (h : q ≠ p) : setCell g p c q = g q := by
  simp [setCell, h]

theorem markVisited_self (g : MazeGrid) (p : Nat × Nat) :
    markVisited g p p = { g p with visited := true } := setCell_same _ _ _

theorem markVisited_other (g : MazeGrid) (p : Nat × Nat) {q : Nat × Nat} (h : q ≠ p) :
    markVisited g p q = g q := setCell_other _ _ _ h

theorem markVisited_walls (g : MazeGrid) (p q : Nat × Nat) :
    (markVisited g p q).walls = (g q).walls := by
  by_cases h : q = p
  · subst h; rw [markVisited_self]
  · rw [markVisited_other g p h]

theorem markVisited_visited (g : MazeGrid) (p q : Nat × Nat) :
    (markVisited g p q).visited = true ↔ ((g q).visited = true ∨ q = p) := by
  by_cases h : q = p
  · subst h; rw [markVisited_self]; simp
  · rw [markVisited_other g p h]; simp [h]

/-! # The `generateMaze` unfolding -/

theorem generateMaze_eq (n : Nat) (seed : Int) (h : 0 < n) :
    generateMaze n seed = .ok (genResult n seed) := by
  have e0 : randFloor n (toUint32 seed) = (scaledDraw n seed 0, streamState seed 1) :=
    randFloor_stream n seed 0
  simp only [generateMaze, e0, randFloor_stream]
  rw [if_pos ⟨scaledDraw_lt h seed 1, scaledDraw_lt h seed 0⟩]
  rfl

theorem generateMaze_size_zero (seed : Int) :
    generateMaze 0 seed = .error .typeError := by
  unfold generateMaze
  simp

/-! # Claim C1: determinism of `generateMaze` -/

/-- C1: `generateMaze` is deterministic in `(size, seed)`: two separate calls
return the same value — in particular the same grid of wall flags, start and
end coordinates, and solution path.  The embedding is a pure function of its
two arguments; the source closure state (`createSeededRandom`) is created
afresh inside each call and no other state is read. -/
theorem generateMaze_deterministic (size : Nat) (seed : Int)
    (r1 r2 : Except JsError MazeResult)
    (h1 : generateMaze size seed = r1) (h2 : generateMaze size seed = r2) :
    r1 = r2 ∧
      ∀ a b, r1 = .ok a → r2 = .ok b →
        a.maze = b.maze ∧ a.startPos = b.startPos ∧ a.endPos = b.endPos ∧
          a.solutionPath = b.solutionPath := by
  subst h1
  subst h2
  refine ⟨rfl, fun a b ha hb => ?_⟩
  cases ha.symm.trans hb
  exact ⟨rfl, rfl, rfl, rfl⟩

/-- Witness for C1 at `size = 2`, `seed = 3`. -/
theorem generateMaze_deterministic_witness :
    generateMaze 2 3 = generateMaze 2 3 ∧
      ∀ a b, generateMaze 2 3 = .ok a → generateMaze 2 3 = .ok b →
        a.maze = b.maze ∧ a.startPos = b.startPos ∧ a.endPos = b.endPos ∧
          a.solutionPath = b.solutionPath :=
  generateMaze_deterministic 2 3 (generateMaze 2 3) (generateMaze 2 3) rfl rfl

/-! # Claim C7: error behaviour on invalid sizes -/

/-- C7 (amended): on size `0` (the embedding of `size ≤ 0`: the initialization
loops produce no rows), `generateMaze` fails — with the JavaScript TypeError
raised by `grid[startY][startX]`, there being no explicit InvalidArgument
validation in the source — and produces no grid; for every positive size and
every integer seed (zero and negative included) the call succeeds. -/
theorem generateMaze_error_handling :
    (∀ seed : Int, generateMaze 0 seed = .error .typeError) ∧
      ∀ (n : Nat) (seed : Int), 0 < n → ∃ r, generateMaze n seed = .ok r :=
  ⟨generateMaze_size_zero,
    fun n seed h => ⟨genResult n seed, generateMaze_eq n seed h⟩⟩

/-- Witness for C7: seed 7 (and seed -3) at sizes 0 and 2. -/
theorem generateMaze_error_handling_witness :
    generateMaze 0 7 = .error .typeError ∧
      (∃ r, generateMaze 2 7 = .ok r) ∧ ∃ r, generateMaze 2 (-3) = .ok r :=
  ⟨generateMaze_error_handling.1 7,
    generateMaze_error_handling.2 2 7 (by decide),
    generateMaze_error_handling.2 2 (-3) (by decide)⟩

/-- Counterexample for C7 as stated: the failure on size 0 is the TypeError
of the unchecked `grid[startY][startX]` access, not an InvalidArgument
condition — the source performs no size validation. -/
theorem generateMaze_error_kind_cex :
    errorOf (generateMaze 0 12345) = some JsError.typeError ∧
      JsError.typeError ≠ JsError.invalidArgument := by
  decide

/-! # Claim C10: `findPath` when start and end coincide -/

/-- C10: when the start and end coordinates coincide, `findPath` returns the
single-element sequence containing exactly that coordinate (the first
dequeued node matches the end immediately and reconstruction stops at the
start's null predecessor), so the reported path length is 1, not 0. -/
theorem findPath_self (g : MazeGrid) (n x y : Nat) :
    findPath g n x y x y = [(x, y)] ∧ (findPath g n x y x y).length = 1 := by
  have h : findPath g n x y x y = [(x, y)] := by
    unfold findPath
    rw [bfsLoop]
    simp [reconstruct, lookupV, sizeV]
  exact ⟨h, by rw [h]; rfl⟩

/-! # Counterexamples for claims C2 and C9 -/

/-- Counterexample for C2 as stated: at `size = 2`, `seed = 5`, the walk
completes within the iteration budget after consuming exactly three draws
(the final generator state is stream position 7 = 4 initial draws + 3), the
end position equals the scaled draws at stream positions 2 and 3 — drawn
before the walk — and its x-coordinate differs from the scaled draw at
position 5 = 2 (start draws) + 3 (walk draws), which is where the claimed
order (end-x and end-y as the last two draws, after the walk) places it. -/
theorem generateMaze_draw_order_cex :
    (generateMaze 2 5).toOption.map (fun r => r.endPos) =
        some (scaledDraw 2 5 2, scaledDraw 2 5 3) ∧
      (walkStates 2 5 9).stack = [] ∧
      (walkStates 2 5 9).rng = streamState 5 7 ∧
      (generateMaze 2 5).toOption.map (fun r => r.endPos.1) ≠
        some (scaledDraw 2 5 5) := by
  decide

/-- Counterexample for C9 as stated: a generated 1×1 grid has dead-end count
0 (its single cell keeps all four walls), not 1. -/
theorem countDeadEnds_one_by_one_cex :
    (generateMaze 1 7).toOption.map (fun r => r.deadEnds) ≠ some 1 ∧
      (generateMaze 1 7).toOption.map (fun r => r.deadEnds) = some 0 := by
  decide

/-! # Walk helper lemmas -/

theorem floorScale_lt {v len : Nat} (hv : v < 2 ^ 32) (hl : 0 < len) :
    v * len / 2 ^ 32 < len := by
  rw [Nat.div_lt_iff_lt_mul (by norm_num : 0 < 2 ^ 32)]
  calc v * len < 2 ^ 32 * len := (Nat.mul_lt_mul_right hl).mpr hv
    _ = len * 2 ^ 32 := Nat.mul_comm _ _

theorem mazeStep_nil {n : Nat} {st : GenState} (h : st.stack = []) :
    mazeStep n st = st := by
  obtain ⟨g, stk, r⟩ := st
  simp only at h
  subst h
  rfl

theorem mazeStep_cons_spec {n : Nat} {st : GenState} {cur : Nat × Nat}
    {rest : List (Nat × Nat)} (h : st.stack = cur :: rest) :
    (getUnvisitedNeighbors st.grid n cur = [] ∧
        mazeStep n st = ⟨st.grid, rest, st.rng⟩) ∨
      ∃ next ∈ getUnvisitedNeighbors st.grid n cur,
        mazeStep n st = ⟨advGrid st.grid cur next, next :: st.stack, mix st.rng⟩ := by
  obtain ⟨g, stk, r⟩ := st
  simp only at h
  subst h
  by_cases hn : 0 < (getUnvisitedNeighbors g n cur).length
  · right
    have hidx : out32 (mix r) * (getUnvisitedNeighbors g n cur).length / 2 ^ 32 <
        (getUnvisitedNeighbors g n cur).length :=
      floorScale_lt (out32_lt (mix_lt r)) hn
    refine ⟨(getUnvisitedNeighbors g n cur).getD
        (out32 (mix r) * (getUnvisitedNeighbors g n cur).length / 2 ^ 32) (0, 0), ?_, ?_⟩
    · rw [List.getD_eq_getElem _ _ hidx]
      exact List.getElem_mem _
    · show mazeStep n ⟨g, cur :: rest, r⟩ = _
      unfold mazeStep
      simp only
      rw [if_pos hn]
      rfl
  · left
    have he : getUnvisitedNeighbors g n cur = [] :=
      List.eq_nil_of_length_eq_zero (Nat.eq_zero_of_not_pos hn)
    refine ⟨he, ?_⟩
    show mazeStep n ⟨g, cur :: rest, r⟩ = _
    unfold mazeStep
    simp only
    rw [if_neg hn]

theorem filter_ite_singleton (a : Prop) [Decidable a] (q : Nat × Nat) (g : MazeGrid) :
    (if a ∧ ¬(g q).visited = true then [q] else []) =
      (if a then [q] else []).filter (fun r => !(g r).visited) := by
  by_cases h : a <;> by_cases hv : (g q).visited = true <;> simp [h, hv]

theorem getUnvisitedNeighbors_eq (g : MazeGrid) (n : Nat) (p : Nat × Nat) :
    getUnvisitedNeighbors g n p =
      (gridNeighbors n p).filter (fun r => !(g r).visited) := by
  unfold getUnvisitedNeighbors gridNeighbors
  rw [filter_ite_singleton, filter_ite_singleton, filter_ite_singleton,
    filter_ite_singleton]
  simp [List.filter_append]

theorem mem_gridNeighbors_cases {n : Nat} {p q : Nat × Nat}
    (h : q ∈ gridNeighbors n p) :
    (q = rightOf p ∧ p.1 + 1 < n) ∨ (p = rightOf q ∧ 0 < p.1) ∨
      (q = downOf p ∧ p.2 + 1 < n) ∨ (p = downOf q ∧ 0 < p.2) := by
  unfold gridNeighbors at h
  rcases List.mem_append.mp h with h | h
  rotate_left
  · rw [List.mem_ite_nil_right] at h
    obtain ⟨hc, hq⟩ := h
    rw [List.mem_singleton] at hq
    subst hq
    refine Or.inr (Or.inl ⟨?_, hc⟩)
    have h2 : p.1 - 1 + 1 = p.1 := Nat.sub_add_cancel hc
    simp [rightOf, h2]
  rcases List.mem_append.mp h with h | h
  rotate_left
  · rw [List.mem_ite_nil_right] at h
    obtain ⟨hc, hq⟩ := h
    rw [List.mem_singleton] at hq
    subst hq
    exact Or.inl ⟨rfl, by omega⟩
  rcases List.mem_append.mp h with h | h
  · rw [List.mem_ite_nil_right] at h
    obtain ⟨hc, hq⟩ := h
    rw [List.mem_singleton] at hq
    subst hq
    refine Or.inr (Or.inr (Or.inr ⟨?_, hc⟩))
    have h2 : p.2 - 1 + 1 = p.2 := Nat.sub_add_cancel hc
    simp [downOf, h2]
  · rw [List.mem_ite_nil_right] at h
    obtain ⟨hc, hq⟩ := h
    rw [List.mem_singleton] at hq
    subst hq
    exact Or.inr (Or.inr (Or.inl ⟨rfl, by omega⟩))

theorem gridNeighbors_inBounds {n : Nat} {p q : Nat × Nat}
    (hp : inBounds n p) (h : q ∈ gridNeighbors n p) : inBounds n q := by
  obtain ⟨hp1, hp2⟩ := hp
  rcases mem_gridNeighbors_cases h with ⟨hq, hb⟩ | ⟨hq, hb⟩ | ⟨hq, hb⟩ | ⟨hq, hb⟩
  · subst hq; exact ⟨hb, hp2⟩
  · have h1 : p.1 = q.1 + 1 := by rw [hq]; rfl
    have h2 : p.2 = q.2 := by rw [hq]; rfl
    exact ⟨by omega, by omega⟩
  · subst hq; exact ⟨hp1, hb⟩
  · have h1 : p.1 = q.1 := by rw [hq]; rfl
    have h2 : p.2 = q.2 + 1 := by rw [hq]; rfl
    exact ⟨by omega, by omega⟩

theorem mem_gridNeighbors_right {n : Nat} {p : Nat × Nat} (h : p.1 + 1 < n) :
    rightOf p ∈ gridNeighbors n p := by
  unfold gridNeighbors
  refine List.mem_append.mpr (Or.inl (List.mem_append.mpr (Or.inr ?_)))
  rw [if_pos (by omega : p.1 < n - 1)]
  exact List.mem_singleton.mpr rfl

theorem mem_gridNeighbors_left {n : Nat} {q : Nat × Nat} (_h : q.1 + 1 < n) :
    q ∈ gridNeighbors n (rightOf q) := by
  unfold gridNeighbors
  refine List.mem_append.mpr (Or.inr ?_)
  rw [if_pos (by simp [rightOf] : 0 < (rightOf q).1)]
  refine List.mem_singleton.mpr ?_
  simp [rightOf]

theorem mem_gridNeighbors_down {n : Nat} {p : Nat × Nat} (h : p.2 + 1 < n) :
    downOf p ∈ gridNeighbors n p := by
  unfold gridNeighbors
  refine List.mem_append.mpr (Or.inl (List.mem_append.mpr (Or.inl
    (List.mem_append.mpr (Or.inr ?_)))))
  rw [if_pos (by omega : p.2 < n - 1)]
  exact List.mem_singleton.mpr rfl

theorem mem_gridNeighbors_up {n : Nat} {q : Nat × Nat} (_h : q.2 + 1 < n) :
    q ∈ gridNeighbors n (downOf q) := by
  unfold gridNeighbors
  refine List.mem_append.mpr (Or.inl (List.mem_append.mpr (Or.inl
    (List.mem_append.mpr (Or.inl ?_)))))
  rw [if_pos (by simp [downOf] : 0 < (downOf q).2)]
  refine List.mem_singleton.mpr ?_
  simp [downOf]

theorem rightOf_ne (p : Nat × Nat) : rightOf p ≠ p := by
  simp [rightOf, Prod.ext_iff]

theorem downOf_ne (p : Nat × Nat) : downOf p ≠ p := by
  simp [downOf, Prod.ext_iff]

/-! # `removeWall` on the four orthogonal-neighbour shapes -/

theorem removeWall_right (g : MazeGrid) (cur : Nat × Nat) :
    removeWall g cur (rightOf cur) =
      setCell (setCell g cur (clearEast (g cur))) (rightOf cur)
        (clearWest (g (rightOf cur))) := by
  have h1 : ((rightOf cur).1 : Int) - (cur.1 : Int) = 1 := by
    simp [rightOf]
  simp only [removeWall]
  rw [if_pos h1, setCell_other g cur (clearEast (g cur)) (rightOf_ne cur)]

theorem removeWall_left (g : MazeGrid) (next : Nat × Nat) :
    removeWall g (rightOf next) next =
      setCell (setCell g (rightOf next) (clearWest (g (rightOf next)))) next
        (clearEast (g next)) := by
  have h1 : ¬((next.1 : Int) - ((rightOf next).1 : Int) = 1) := by
    simp [rightOf]
  have h2 : (next.1 : Int) - ((rightOf next).1 : Int) = -1 := by
    simp [rightOf]
  simp only [removeWall]
  rw [if_neg h1, if_pos h2,
    setCell_other g (rightOf next) (clearWest (g (rightOf next))) (rightOf_ne next).symm]

theorem removeWall_down (g : MazeGrid) (cur : Nat × Nat) :
    removeWall g cur (downOf cur) =
      setCell (setCell g cur (clearSouth (g cur))) (downOf cur)
        (clearNorth (g (downOf cur))) := by
  have h1 : ¬(((downOf cur).1 : Int) - (cur.1 : Int) = 1) := by simp [downOf]
  have h2 : ¬(((downOf cur).1 : Int) - (cur.1 : Int) = -1) := by simp [downOf]
  have h3 : ((downOf cur).2 : Int) - (cur.2 : Int) = 1 := by simp [downOf]
  simp only [removeWall]
  rw [if_neg h1, if_neg h2, if_pos h3,
    setCell_other g cur (clearSouth (g cur)) (downOf_ne cur)]

theorem removeWall_up (g : MazeGrid) (next : Nat × Nat) :
    removeWall g (downOf next) next =
      setCell (setCell g (downOf next) (clearNorth (g (downOf next)))) next
        (clearSouth (g next)) := by
  have h1 : ¬((next.1 : Int) - ((downOf next).1 : Int) = 1) := by simp [downOf]
  have h2 : ¬((next.1 : Int) - ((downOf next).1 : Int) = -1) := by simp [downOf]
  have h3 : ¬((next.2 : Int) - ((downOf next).2 : Int) = 1) := by
    simp [downOf]
  have h4 : (next.2 : Int) - ((downOf next).2 : Int) = -1 := by
    simp [downOf]
  simp only [removeWall]
  rw [if_neg h1, if_neg h2, if_neg h3, if_pos h4,
    setCell_other g (downOf next) (clearNorth (g (downOf next))) (downOf_ne next).symm]

/-! # Pointwise description of the grid after one advance -/

theorem advGrid_right_eq (g : MazeGrid) (cur q : Nat × Nat) :
    advGrid g cur (rightOf cur) q =
      if q = rightOf cur then
        ⟨⟨(g q).walls.north, (g q).walls.south, (g q).walls.east, false⟩, true⟩
      else if q = cur then
        ⟨⟨(g q).walls.north, (g q).walls.south, false, (g q).walls.west⟩,
          (g q).visited⟩
      else g q := by
  unfold advGrid
  rw [removeWall_right]
  by_cases h1 : q = rightOf cur
  · subst h1
    rw [markVisited_self]
    rw [if_pos rfl]
    rw [setCell_same]
    rfl
  · rw [markVisited_other _ _ h1, if_neg h1]
    rw [setCell_other _ _ _ h1]
    by_cases h2 : q = cur
    · subst h2
      rw [setCell_same, if_pos rfl]
      rfl
    · rw [setCell_other _ _ _ h2, if_neg h2]

theorem advGrid_left_eq (g : MazeGrid) (next q : Nat × Nat) :
    advGrid g (rightOf next) next q =
      if q = next then
        ⟨⟨(g q).walls.north, (g q).walls.south, false, (g q).walls.west⟩, true⟩
      else if q = rightOf next then
        ⟨⟨(g q).walls.north, (g q).walls.south, (g q).walls.east, false⟩,
          (g q).visited⟩
      else g q := by
  unfold advGrid
  rw [removeWall_left]
  by_cases h1 : q = next
  · subst h1
    rw [markVisited_self, if_pos rfl, setCell_same]
    rfl
  · rw [markVisited_other _ _ h1, if_neg h1, setCell_other _ _ _ h1]
    by_cases h2 : q = rightOf next
    · subst h2
      rw [setCell_same, if_pos rfl]
      rfl
    · rw [setCell_other _ _ _ h2, if_neg h2]

theorem advGrid_down_eq (g : MazeGrid) (cur q : Nat × Nat) :
    advGrid g cur (downOf cur) q =
      if q = downOf cur then
        ⟨⟨false, (g q).walls.south, (g q).walls.east, (g q).walls.west⟩, true⟩
      else if q = cur then
        ⟨⟨(g q).walls.north, false, (g q).walls.east, (g q).walls.west⟩,
          (g q).visited⟩
      else g q := by
  unfold advGrid
  rw [removeWall_down]
  by_cases h1 : q = downOf cur
  · subst h1
    rw [markVisited_self, if_pos rfl, setCell_same]
    rfl
  · rw [markVisited_other _ _ h1, if_neg h1, setCell_other _ _ _ h1]
    by_cases h2 : q = cur
    · subst h2
      rw [setCell_same, if_pos rfl]
      rfl
    · rw [setCell_other _ _ _ h2, if_neg h2]

theorem advGrid_up_eq (g : MazeGrid) (next q : Nat × Nat) :
    advGrid g (downOf next) next q =
      if q = next then
        ⟨⟨(g q).walls.north, false, (g q).walls.east, (g q).walls.west⟩, true⟩
      else if q = downOf next then
        ⟨⟨false, (g q).walls.south, (g q).walls.east, (g q).walls.west⟩,
          (g q).visited⟩
      else g q := by
  unfold advGrid
  rw [removeWall_up]
  by_cases h1 : q = next
  · subst h1
    rw [markVisited_self, if_pos rfl, setCell_same]
    rfl
  · rw [markVisited_other _ _ h1, if_neg h1, setCell_other _ _ _ h1]
    by_cases h2 : q = downOf next
    · subst h2
      rw [setCell_same, if_pos rfl]
      rfl
    · rw [setCell_other _ _ _ h2, if_neg h2]

/-! # Counting lemmas -/

theorem rightOf_inj {p q : Nat × Nat} (h : rightOf p = rightOf q) : p = q := by
  have h1 := congrArg Prod.fst h
  have h2 := congrArg Prod.snd h
  simp only [rightOf] at h1 h2
  exact Prod.ext (by omega) h2

theorem downOf_inj {p q : Nat × Nat} (h : downOf p = downOf q) : p = q := by
  have h1 := congrArg Prod.fst h
  have h2 := congrArg Prod.snd h
  simp only [downOf] at h1 h2
  exact Prod.ext h1 (by omega)

theorem visitedCount_le (g : MazeGrid) (n : Nat) : visitedCount g n ≤ n * n := by
  unfold visitedCount
  calc ((Finset.range n ×ˢ Finset.range n).filter _).card
      ≤ (Finset.range n ×ˢ Finset.range n).card := Finset.card_filter_le _ _
    _ = n * n := by rw [Finset.card_product, Finset.card_range]

theorem visitedCount_lt {n : Nat} {g : MazeGrid} {q : Nat × Nat}
    (hb : inBounds n q) (h : ¬(g q).visited = true) : visitedCount g n < n * n := by
  unfold visitedCount
  have hsub : (Finset.range n ×ˢ Finset.range n).filter (fun p => (g p).visited = true) ⊂
      Finset.range n ×ˢ Finset.range n := by
    refine Finset.ssubset_iff_of_subset (Finset.filter_subset _ _) |>.mpr ?_
    refine ⟨q, ?_, ?_⟩
    · rw [Finset.mem_product, Finset.mem_range, Finset.mem_range]
      exact hb
    · rw [Finset.mem_filter]
      intro hc
      exact h hc.2
  calc ((Finset.range n ×ˢ Finset.range n).filter _).card
      < (Finset.range n ×ˢ Finset.range n).card := Finset.card_lt_card hsub
    _ = n * n := by rw [Finset.card_product, Finset.card_range]

theorem visitedCount_insert {n : Nat} {g g' : MazeGrid} {next : Nat × Nat}
    (hnb : inBounds n next) (hnv : ¬(g next).visited = true)
    (hvis : ∀ q, (g' q).visited = true ↔ ((g q).visited = true ∨ q = next)) :
    visitedCount g' n = visitedCount g n + 1 := by
  unfold visitedCount
  have hset : (Finset.range n ×ˢ Finset.range n).filter
        (fun p => (g' p).visited = true) =
      insert next ((Finset.range n ×ˢ Finset.range n).filter
        (fun p => (g p).visited = true)) := by
    ext q
    simp only [Finset.mem_filter, Finset.mem_insert, Finset.mem_product,
      Finset.mem_range]
    constructor
    · rintro ⟨hq, hv⟩
      rcases (hvis q).mp hv with h | h
      · exact Or.inr ⟨hq, h⟩
      · exact Or.inl h
    · rintro (rfl | ⟨hq, hv⟩)
      · exact ⟨hnb, (hvis q).mpr (Or.inr rfl)⟩
      · exact ⟨hq, (hvis q).mpr (Or.inl hv)⟩
  rw [hset, Finset.card_insert_of_not_mem]
  rw [Finset.mem_filter]
  intro hc
  exact hnv hc.2

theorem openEdgeCount_H_advance {n : Nat} {g g' : MazeGrid} {b : Nat × Nat}
    (hE : ∀ q, (g' q).walls.east = if q = b then false else (g q).walls.east)
    (hW : ∀ q, (g' q).walls.west =
      if q = rightOf b then false else (g q).walls.west)
    (hN : ∀ q, (g' q).walls.north = (g q).walls.north)
    (hS : ∀ q, (g' q).walls.south = (g q).walls.south)
    (hb : b.1 + 1 < n ∧ b.2 < n)
    (hclosed : (g b).walls.east = true) :
    openEdgeCount g' n = openEdgeCount g n + 1 := by
  unfold openEdgeCount
  have hH : (Finset.range n ×ˢ Finset.range n).filter
        (fun p => p.1 + 1 < n ∧ edgeOpenH g' p) =
      insert b ((Finset.range n ×ˢ Finset.range n).filter
        (fun p => p.1 + 1 < n ∧ edgeOpenH g p)) := by
    ext q
    simp only [Finset.mem_filter, Finset.mem_insert, Finset.mem_product,
      Finset.mem_range]
    constructor
    · rintro ⟨hq, hlt, hoE, hoW⟩
      by_cases hqb : q = b
      · exact Or.inl hqb
      · refine Or.inr ⟨hq, hlt, ?_, ?_⟩
        · rw [hE q, if_neg hqb] at hoE
          exact hoE
        · have hne : rightOf q ≠ rightOf b := fun hc => hqb (rightOf_inj hc)
          rw [hW (rightOf q), if_neg hne] at hoW
          exact hoW
    · rintro (rfl | ⟨hq, hlt, hoE, hoW⟩)
      · refine ⟨⟨by omega, hb.2⟩, hb.1, ?_, ?_⟩
        · rw [hE q, if_pos rfl]
        · rw [hW (rightOf q), if_pos rfl]
      · refine ⟨hq, hlt, ?_, ?_⟩
        · rw [hE q]
          by_cases hqb : q = b
          · rw [if_pos hqb]
          · rw [if_neg hqb]; exact hoE
        · rw [hW (rightOf q)]
          by_cases hqb : rightOf q = rightOf b
          · rw [if_pos hqb]
          · rw [if_neg hqb]; exact hoW
  have hV : (Finset.range n ×ˢ Finset.range n).filter
        (fun p => p.2 + 1 < n ∧ edgeOpenV g' p) =
      (Finset.range n ×ˢ Finset.range n).filter
        (fun p => p.2 + 1 < n ∧ edgeOpenV g p) := by
    apply Finset.filter_congr
    intro q _
    unfold edgeOpenV
    rw [hS q, hN (downOf q)]
  have hbNot : b ∉ (Finset.range n ×ˢ Finset.range n).filter
      (fun p => p.1 + 1 < n ∧ edgeOpenH g p) := by
    rw [Finset.mem_filter]
    rintro ⟨-, -, hoE, -⟩
    rw [hclosed] at hoE
    cases hoE
  rw [hH, hV, Finset.card_insert_of_not_mem hbNot]
  omega

theorem openEdgeCount_V_advance {n : Nat} {g g' : MazeGrid} {b : Nat × Nat}
    (hS : ∀ q, (g' q).walls.south = if q = b then false else (g q).walls.south)
    (hN : ∀ q, (g' q).walls.north =
      if q = downOf b then false else (g q).walls.north)
    (hE : ∀ q, (g' q).walls.east = (g q).walls.east)
    (hW : ∀ q, (g' q).walls.west = (g q).walls.west)
    (hb : b.2 + 1 < n ∧ b.1 < n)
    (hclosed : (g b).walls.south = true) :
    openEdgeCount g' n = openEdgeCount g n + 1 := by
  unfold openEdgeCount
  have hV : (Finset.range n ×ˢ Finset.range n).filter
        (fun p => p.2 + 1 < n ∧ edgeOpenV g' p) =
      insert b ((Finset.range n ×ˢ Finset.range n).filter
        (fun p => p.2 + 1 < n ∧ edgeOpenV g p)) := by
    ext q
    simp only [Finset.mem_filter, Finset.mem_insert, Finset.mem_product,
      Finset.mem_range]
    constructor
    · rintro ⟨hq, hlt, hoS, hoN⟩
      by_cases hqb : q = b
      · exact Or.inl hqb
      · refine Or.inr ⟨hq, hlt, ?_, ?_⟩
        · rw [hS q, if_neg hqb] at hoS
          exact hoS
        · have hne : downOf q ≠ downOf b := fun hc => hqb (downOf_inj hc)
          rw [hN (downOf q), if_neg hne] at hoN
          exact hoN
    · rintro (rfl | ⟨hq, hlt, hoS, hoN⟩)
      · refine ⟨⟨hb.2, by omega⟩, hb.1, ?_, ?_⟩
        · rw [hS q, if_pos rfl]
        · rw [hN (downOf q), if_pos rfl]
      · refine ⟨hq, hlt, ?_, ?_⟩
        · rw [hS q]
          by_cases hqb : q = b
          · rw [if_pos hqb]
          · rw [if_neg hqb]; exact hoS
        · rw [hN (downOf q)]
          by_cases hqb : downOf q = downOf b
          · rw [if_pos hqb]
          · rw [if_neg hqb]; exact hoN
  have hH : (Finset.range n ×ˢ Finset.range n).filter
        (fun p => p.1 + 1 < n ∧ edgeOpenH g' p) =
      (Finset.range n ×ˢ Finset.range n).filter
        (fun p => p.1 + 1 < n ∧ edgeOpenH g p) := by
    apply Finset.filter_congr
    intro q _
    unfold edgeOpenH
    rw [hE q, hW (rightOf q)]
  have hbNot : b ∉ (Finset.range n ×ˢ Finset.range n).filter
      (fun p => p.2 + 1 < n ∧ edgeOpenV g p) := by
    rw [Finset.mem_filter]
    rintro ⟨-, -, hoS, -⟩
    rw [hclosed] at hoS
    cases hoS
  rw [hH, hV, Finset.card_insert_of_not_mem hbNot]
  omega

/-! # Flag form of the four advances -/

theorem advGrid_right_flags (g : MazeGrid) (cur : Nat × Nat) :
    (∀ q, (advGrid g cur (rightOf cur) q).walls.east =
        if q = cur then false else (g q).walls.east) ∧
      (∀ q, (advGrid g cur (rightOf cur) q).walls.west =
        if q = rightOf cur then false else (g q).walls.west) ∧
      (∀ q, (advGrid g cur (rightOf cur) q).walls.north = (g q).walls.north) ∧
      (∀ q, (advGrid g cur (rightOf cur) q).walls.south = (g q).walls.south) ∧
      ∀ q, (advGrid g cur (rightOf cur) q).visited = true ↔
        ((g q).visited = true ∨ q = rightOf cur) := by
  refine ⟨?_, ?_, ?_, ?_, ?_⟩ <;> intro q <;> rw [advGrid_right_eq] <;>
    by_cases h1 : q = rightOf cur <;> by_cases h2 : q = cur <;>
    simp [h1, h2, rightOf_ne cur, (rightOf_ne cur).symm]

theorem advGrid_left_flags (g : MazeGrid) (next : Nat × Nat) :
    (∀ q, (advGrid g (rightOf next) next q).walls.east =
        if q = next then false else (g q).walls.east) ∧
      (∀ q, (advGrid g (rightOf next) next q).walls.west =
        if q = rightOf next then false else (g q).walls.west) ∧
      (∀ q, (advGrid g (rightOf next) next q).walls.north = (g q).walls.north) ∧
      (∀ q, (advGrid g (rightOf next) next q).walls.south = (g q).walls.south) ∧
      ∀ q, (advGrid g (rightOf next) next q).visited = true ↔
        ((g q).visited = true ∨ q = next) := by
  refine ⟨?_, ?_, ?_, ?_, ?_⟩ <;> intro q <;> rw [advGrid_left_eq] <;>
    by_cases h1 : q = next <;> by_cases h2 : q = rightOf next <;>
    simp [h1, h2, rightOf_ne next, (rightOf_ne next).symm]

theorem advGrid_down_flags (g : MazeGrid) (cur : Nat × Nat) :
    (∀ q, (advGrid g cur (downOf cur) q).walls.south =
        if q = cur then false else (g q).walls.south) ∧
      (∀ q, (advGrid g cur (downOf cur) q).walls.north =
        if q = downOf cur then false else (g q).walls.north) ∧
      (∀ q, (advGrid g cur (downOf cur) q).walls.east = (g q).walls.east) ∧
      (∀ q, (advGrid g cur (downOf cur) q).walls.west = (g q).walls.west) ∧
      ∀ q, (advGrid g cur (downOf cur) q).visited = true ↔
        ((g q).visited = true ∨ q = downOf cur) := by
  refine ⟨?_, ?_, ?_, ?_, ?_⟩ <;> intro q <;> rw [advGrid_down_eq] <;>
    by_cases h1 : q = downOf cur <;> by_cases h2 : q = cur <;>
    simp [h1, h2, downOf_ne cur, (downOf_ne cur).symm]

theorem advGrid_up_flags (g : MazeGrid) (next : Nat × Nat) :
    (∀ q, (advGrid g (downOf next) next q).walls.south =
        if q = next then false else (g q).walls.south) ∧
      (∀ q, (advGrid g (downOf next) next q).walls.north =
        if q = downOf next then false else (g q).walls.north) ∧
      (∀ q, (advGrid g (downOf next) next q).walls.east = (g q).walls.east) ∧
      (∀ q, (advGrid g (downOf next) next q).walls.west = (g q).walls.west) ∧
      ∀ q, (advGrid g (downOf next) next q).visited = true ↔
        ((g q).visited = true ∨ q = next) := by
  refine ⟨?_, ?_, ?_, ?_, ?_⟩ <;> intro q <;> rw [advGrid_up_eq] <;>
    by_cases h1 : q = next <;> by_cases h2 : q = downOf next <;>
    simp [h1, h2, downOf_ne next, (downOf_ne next).symm]

/-! # Wall invariant across one advance -/

theorem WallInv_H_advance {n : Nat} {g g' : MazeGrid} {b : Nat × Nat}
    (hE : ∀ q, (g' q).walls.east = if q = b then false else (g q).walls.east)
    (hW : ∀ q, (g' q).walls.west =
      if q = rightOf b then false else (g q).walls.west)
    (hN : ∀ q, (g' q).walls.north = (g q).walls.north)
    (hS : ∀ q, (g' q).walls.south = (g q).walls.south)
    (hvis : ∀ q, (g' q).visited = true → (g q).visited = true ∨ q = b ∨ q = rightOf b)
    (hvis' : ∀ q, (g q).visited = true → (g' q).visited = true)
    (hb : b.1 + 1 < n ∧ b.2 < n)
    (hbv : (g' b).visited = true) (hrv : (g' (rightOf b)).visited = true)
    (hw : WallInv n g) : WallInv n g' := by
  constructor
  · intro p hp
    rw [hE p] at hp
    by_cases hpb : p = b
    · subst hpb
      refine ⟨hb.1, hb.2, ?_, hbv, hrv⟩
      rw [hW, if_pos rfl]
    · rw [if_neg hpb] at hp
      obtain ⟨l1, l2, l3, l4, l5⟩ := hw.eastOpen p hp
      refine ⟨l1, l2, ?_, hvis' p l4, hvis' _ l5⟩
      rw [hW]
      by_cases hc : rightOf p = rightOf b
      · rw [if_pos hc]
      · rw [if_neg hc]; exact l3
  · intro p hp
    rw [hW p] at hp
    by_cases hpb : p = rightOf b
    · subst hpb
      refine ⟨by simp [rightOf], ?_⟩
      have hback : ((rightOf b).1 - 1, (rightOf b).2) = b := by
        simp [rightOf]
      rw [hback, hE, if_pos rfl]
    · rw [if_neg hpb] at hp
      obtain ⟨l1, l2⟩ := hw.westOpen p hp
      refine ⟨l1, ?_⟩
      rw [hE]
      by_cases hc : (p.1 - 1, p.2) = b
      · rw [if_pos hc]
      · rw [if_neg hc]; exact l2
  · intro p hp
    rw [hS p] at hp
    obtain ⟨l1, l2, l3, l4, l5⟩ := hw.southOpen p hp
    refine ⟨l1, l2, ?_, hvis' p l4, hvis' _ l5⟩
    rw [hN]
    exact l3
  · intro p hp
    rw [hN p] at hp
    obtain ⟨l1, l2⟩ := hw.northOpen p hp
    refine ⟨l1, ?_⟩
    rw [hS]
    exact l2

theorem WallInv_V_advance {n : Nat} {g g' : MazeGrid} {b : Nat × Nat}
    (hS : ∀ q, (g' q).walls.south = if q = b then false else (g q).walls.south)
    (hN : ∀ q, (g' q).walls.north =
      if q = downOf b then false else (g q).walls.north)
    (hE : ∀ q, (g' q).walls.east = (g q).walls.east)
    (hW : ∀ q, (g' q).walls.west = (g q).walls.west)
    (hvis : ∀ q, (g' q).visited = true → (g q).visited = true ∨ q = b ∨ q = downOf b)
    (hvis' : ∀ q, (g q).visited = true → (g' q).visited = true)
    (hb : b.2 + 1 < n ∧ b.1 < n)
    (hbv : (g' b).visited = true) (hrv : (g' (downOf b)).visited = true)
    (hw : WallInv n g) : WallInv n g' := by
  constructor
  · intro p hp
    rw [hE p] at hp
    obtain ⟨l1, l2, l3, l4, l5⟩ := hw.eastOpen p hp
    refine ⟨l1, l2, ?_, hvis' p l4, hvis' _ l5⟩
    rw [hW]
    exact l3
  · intro p hp
    rw [hW p] at hp
    obtain ⟨l1, l2⟩ := hw.westOpen p hp
    refine ⟨l1, ?_⟩
    rw [hE]
    exact l2
  · intro p hp
    rw [hS p] at hp
    by_cases hpb : p = b
    · subst hpb
      refine ⟨hb.1, hb.2, ?_, hbv, hrv⟩
      rw [hN, if_pos rfl]
    · rw [if_neg hpb] at hp
      obtain ⟨l1, l2, l3, l4, l5⟩ := hw.southOpen p hp
      refine ⟨l1, l2, ?_, hvis' p l4, hvis' _ l5⟩
      rw [hN]
      by_cases hc : downOf p = downOf b
      · rw [if_pos hc]
      · rw [if_neg hc]; exact l3
  · intro p hp
    rw [hN p] at hp
    by_cases hpb : p = downOf b
    · subst hpb
      refine ⟨by simp [downOf], ?_⟩
      have hback : ((downOf b).1, (downOf b).2 - 1) = b := by
        simp [downOf]
      rw [hback, hS, if_pos rfl]
    · rw [if_neg hpb] at hp
      obtain ⟨l1, l2⟩ := hw.northOpen p hp
      refine ⟨l1, ?_⟩
      rw [hS]
      by_cases hc : (p.1, p.2 - 1) = b
      · rw [if_pos hc]
      · rw [if_neg hc]; exact l2

/-! # Monotonicity of open adjacency -/

theorem openAdj_mono {g g' : MazeGrid}
    (hmono : ∀ q, ((g q).walls.east = false → (g' q).walls.east = false) ∧
      ((g q).walls.west = false → (g' q).walls.west = false) ∧
      ((g q).walls.north = false → (g' q).walls.north = false) ∧
      ((g q).walls.south = false → (g' q).walls.south = false))
    {p q : Nat × Nat} (h : openAdj g p q) : openAdj g' p q := by
  unfold openAdj edgeOpenH edgeOpenV at h ⊢
  rcases h with ⟨he, h1, h2⟩ | ⟨he, h1, h2⟩ | ⟨he, h1, h2⟩ | ⟨he, h1, h2⟩
  · exact Or.inl ⟨he, (hmono p).1 h1, (hmono _).2.1 h2⟩
  · exact Or.inr (Or.inl ⟨he, (hmono q).1 h1, (hmono _).2.1 h2⟩)
  · exact Or.inr (Or.inr (Or.inl ⟨he, (hmono p).2.2.2 h1, (hmono _).2.2.1 h2⟩))
  · exact Or.inr (Or.inr (Or.inr ⟨he, (hmono q).2.2.2 h1, (hmono _).2.2.1 h2⟩))

/-! # One advance and one backtrack preserve the walk invariant -/

theorem neighbors_all_visited {g : MazeGrid} {n : Nat} {cur : Nat × Nat}
    (hemp : getUnvisitedNeighbors g n cur = []) :
    ∀ q ∈ gridNeighbors n cur, (g q).visited = true := by
  rw [getUnvisitedNeighbors_eq] at hemp
  intro q hq
  have h := List.filter_eq_nil_iff.mp hemp q hq
  simpa using h

theorem walkInv_advance_final {n : Nat} {s0 : Nat × Nat} {g g' : MazeGrid}
    {cur next : Nat × Nat} {rest : List (Nat × Nat)} {r : Nat}
    (inv : WalkInv n s0 ⟨g, cur :: rest, r⟩)
    (hnv : ¬(g next).visited = true)
    (hnb : inBounds n next)
    (hvis : ∀ q, (g' q).visited = true ↔ ((g q).visited = true ∨ q = next))
    (hmono : ∀ q, ((g q).walls.east = false → (g' q).walls.east = false) ∧
      ((g q).walls.west = false → (g' q).walls.west = false) ∧
      ((g q).walls.north = false → (g' q).walls.north = false) ∧
      ((g q).walls.south = false → (g' q).walls.south = false))
    (hWI : WallInv n g')
    (hcount : openEdgeCount g' n = openEdgeCount g n + 1)
    (hadj : openAdj g' cur next) :
    WalkInv n s0 ⟨g', next :: cur :: rest, mix r⟩ := by
  have hcv : (g cur).visited = true := inv.stackVis cur (List.mem_cons_self _ _)
  constructor
  · intro p hp
    rcases (hvis p).mp hp with h | h
    · exact inv.vbound p h
    · subst h; exact hnb
  · exact (hvis s0).mpr (Or.inl inv.startVis)
  · intro p hp
    rcases List.mem_cons.mp hp with h | h
    · subst h; exact (hvis p).mpr (Or.inr rfl)
    · exact (hvis p).mpr (Or.inl (inv.stackVis p h))
  · refine List.nodup_cons.mpr ⟨?_, inv.stackNodup⟩
    intro hc
    exact hnv (inv.stackVis next hc)
  · exact hWI
  · have hv' := visitedCount_insert hnb hnv hvis
    have he := inv.edges
    simp only at he hv' ⊢
    omega
  · intro p hp
    rcases (hvis p).mp hp with h | h
    · exact (inv.reach p h).mono (fun a b hab => openAdj_mono hmono hab)
    · subst h
      exact Relation.ReflTransGen.tail
        ((inv.reach cur hcv).mono (fun a b hab => openAdj_mono hmono hab)) hadj
  · intro p hp hns q hq
    have hpn : p ≠ next := by
      intro hc
      exact hns (hc ▸ List.mem_cons_self _ _)
    rcases (hvis p).mp hp with h | h
    · have hpo : p ∉ cur :: rest := by
        intro hc
        exact hns (List.mem_cons.mpr (Or.inr hc))
      exact (hvis q).mpr (Or.inl (inv.offStack p h hpo q hq))
    · exact absurd h hpn

theorem walkInv_backtrack {n : Nat} {s0 : Nat × Nat} {g : MazeGrid}
    {cur : Nat × Nat} {rest : List (Nat × Nat)} {r : Nat}
    (inv : WalkInv n s0 ⟨g, cur :: rest, r⟩)
    (hemp : getUnvisitedNeighbors g n cur = []) :
    WalkInv n s0 ⟨g, rest, r⟩ := by
  constructor
  · exact inv.vbound
  · exact inv.startVis
  · intro p hp
    exact inv.stackVis p (List.mem_cons.mpr (Or.inr hp))
  · exact (List.nodup_cons.mp inv.stackNodup).2
  · exact inv.walls
  · exact inv.edges
  · exact inv.reach
  · intro p hp hns q hq
    by_cases hpc : p = cur
    · subst hpc
      exact neighbors_all_visited hemp q hq
    · have hpo : p ∉ cur :: rest := by
        intro hc
        rcases List.mem_cons.mp hc with h | h
        · exact hpc h
        · exact hns h
      exact inv.offStack p hp hpo q hq

/-! # The full specification of one loop iteration -/

theorem mazeStep_full {n : Nat} {s0 : Nat × Nat} (st : GenState)
    (inv : WalkInv n s0 st) :
    WalkInv n s0 (mazeStep n st) ∧
      visitedCount (mazeStep n st).grid n =
        visitedCount st.grid n + (if isAdvance n st then 1 else 0) ∧
      (mazeStep n st).stack.length + (if isBacktrack n st then 1 else 0) =
        st.stack.length + (if isAdvance n st then 1 else 0) ∧
      (st.stack ≠ [] → walkMeasure n (mazeStep n st) < walkMeasure n st) ∧
      ((mazeStep n st).rng = st.rng ∨ (mazeStep n st).rng = mix st.rng) := by
  obtain ⟨g, stk, r⟩ := st
  cases stk with
  | nil =>
    rw [mazeStep_nil rfl]
    have hA : ¬isAdvance n ⟨g, [], r⟩ := fun h => h
    have hB : ¬isBacktrack n ⟨g, [], r⟩ := fun h => h
    rw [if_neg hA, if_neg hB]
    exact ⟨inv, rfl, rfl, fun hc => absurd rfl hc, Or.inl rfl⟩
  | cons cur rest =>
    rcases @mazeStep_cons_spec n ⟨g, cur :: rest, r⟩ cur rest rfl with
      ⟨hemp, hstep⟩ | ⟨next, hmem, hstep⟩
    · have hA : ¬isAdvance n (⟨g, cur :: rest, r⟩ : GenState) := by
        intro h
        have h' : 0 < (getUnvisitedNeighbors g n cur).length := h
        rw [hemp] at h'
        exact Nat.lt_irrefl 0 h'
      have hB : isBacktrack n (⟨g, cur :: rest, r⟩ : GenState) := by
        show ¬0 < (getUnvisitedNeighbors g n cur).length
        rw [hemp]
        exact Nat.lt_irrefl 0
      rw [hstep, if_neg hA, if_pos hB]
      refine ⟨walkInv_backtrack inv hemp, by simp, by simp, ?_, Or.inl rfl⟩
      intro _
      unfold walkMeasure
      simp only [List.length_cons]
      omega
    · have hmem' := hmem
      rw [getUnvisitedNeighbors_eq, List.mem_filter] at hmem'
      obtain ⟨hGn, hnvb⟩ := hmem'
      have hnv : ¬(g next).visited = true := by simpa using hnvb
      have hA : isAdvance n (⟨g, cur :: rest, r⟩ : GenState) :=
        List.length_pos.mpr (List.ne_nil_of_mem hmem)
      have hB : ¬isBacktrack n (⟨g, cur :: rest, r⟩ : GenState) := fun h => h hA
      have hcb : inBounds n cur :=
        inv.vbound cur (inv.stackVis cur (List.mem_cons_self _ _))
      have hnb : inBounds n next := gridNeighbors_inBounds hcb hGn
      have pack : WalkInv n s0 ⟨advGrid g cur next, next :: cur :: rest, mix r⟩ := by
        rcases mem_gridNeighbors_cases hGn with
          ⟨heq, hblt⟩ | ⟨heq, hblt⟩ | ⟨heq, hblt⟩ | ⟨heq, hblt⟩
        · subst heq
          obtain ⟨fE, fW, fN, fS, fV⟩ := advGrid_right_flags g cur
          have hmono : ∀ q,
              ((g q).walls.east = false →
                (advGrid g cur (rightOf cur) q).walls.east = false) ∧
              ((g q).walls.west = false →
                (advGrid g cur (rightOf cur) q).walls.west = false) ∧
              ((g q).walls.north = false →
                (advGrid g cur (rightOf cur) q).walls.north = false) ∧
              ((g q).walls.south = false →
                (advGrid g cur (rightOf cur) q).walls.south = false) := by
            intro q
            refine ⟨fun h => ?_, fun h => ?_, fun h => ?_, fun h => ?_⟩
            · rw [fE q]
              by_cases hc : q = cur
              · rw [if_pos hc]
              · rw [if_neg hc]; exact h
            · rw [fW q]
              by_cases hc : q = rightOf cur
              · rw [if_pos hc]
              · rw [if_neg hc]; exact h
            · rw [fN q]; exact h
            · rw [fS q]; exact h
          have hclosed : (g cur).walls.east = true := by
            rcases Bool.eq_false_or_eq_true ((g cur).walls.east) with hc | hc
            · exact hc
            · exact absurd (inv.walls.eastOpen cur hc).2.2.2.2 hnv
          have hWI : WallInv n (advGrid g cur (rightOf cur)) :=
            WallInv_H_advance fE fW fN fS
              (fun q h => ((fV q).mp h).imp id Or.inr)
              (fun q h => (fV q).mpr (Or.inl h))
              ⟨hblt, hcb.2⟩
              ((fV cur).mpr (Or.inl (inv.stackVis cur (List.mem_cons_self _ _))))
              ((fV (rightOf cur)).mpr (Or.inr rfl)) inv.walls
          have hcount := openEdgeCount_H_advance fE fW fN fS ⟨hblt, hcb.2⟩ hclosed
          have hadj : openAdj (advGrid g cur (rightOf cur)) cur (rightOf cur) := by
            refine Or.inl ⟨rfl, ?_, ?_⟩
            · rw [fE cur, if_pos rfl]
            · rw [fW (rightOf cur), if_pos rfl]
          exact walkInv_advance_final inv hnv hnb fV hmono hWI hcount hadj
        · subst heq
          obtain ⟨fE, fW, fN, fS, fV⟩ := advGrid_left_flags g next
          have hmono : ∀ q,
              ((g q).walls.east = false →
                (advGrid g (rightOf next) next q).walls.east = false) ∧
              ((g q).walls.west = false →
                (advGrid g (rightOf next) next q).walls.west = false) ∧
              ((g q).walls.north = false →
                (advGrid g (rightOf next) next q).walls.north = false) ∧
              ((g q).walls.south = false →
                (advGrid g (rightOf next) next q).walls.south = false) := by
            intro q
            refine ⟨fun h => ?_, fun h => ?_, fun h => ?_, fun h => ?_⟩
            · rw [fE q]
              by_cases hc : q = next
              · rw [if_pos hc]
              · rw [if_neg hc]; exact h
            · rw [fW q]
              by_cases hc : q = rightOf next
              · rw [if_pos hc]
              · rw [if_neg hc]; exact h
            · rw [fN q]; exact h
            · rw [fS q]; exact h
          have hclosed : (g next).walls.east = true := by
            rcases Bool.eq_false_or_eq_true ((g next).walls.east) with hc | hc
            · exact hc
            · exact absurd (inv.walls.eastOpen next hc).2.2.2.1 hnv
          have hnblt : next.1 + 1 < n := by
            have h1 : (rightOf next).1 = next.1 + 1 := rfl
            have := hcb.1
            omega
          have hWI : WallInv n (advGrid g (rightOf next) next) :=
            WallInv_H_advance fE fW fN fS
              (fun q h => ((fV q).mp h).imp id Or.inl)
              (fun q h => (fV q).mpr (Or.inl h))
              ⟨hnblt, hnb.2⟩
              ((fV next).mpr (Or.inr rfl))
              ((fV (rightOf next)).mpr
                (Or.inl (inv.stackVis _ (List.mem_cons_self _ _)))) inv.walls
          have hcount := openEdgeCount_H_advance fE fW fN fS ⟨hnblt, hnb.2⟩ hclosed
          have hadj : openAdj (advGrid g (rightOf next) next) (rightOf next) next := by
            refine Or.inr (Or.inl ⟨rfl, ?_, ?_⟩)
            · rw [fE next, if_pos rfl]
            · rw [fW (rightOf next), if_pos rfl]
          exact walkInv_advance_final inv hnv hnb fV hmono hWI hcount hadj
        · subst heq
          obtain ⟨fS, fN, fE, fW, fV⟩ := advGrid_down_flags g cur
          have hmono : ∀ q,
              ((g q).walls.east = false →
                (advGrid g cur (downOf cur) q).walls.east = false) ∧
              ((g q).walls.west = false →
                (advGrid g cur (downOf cur) q).walls.west = false) ∧
              ((g q).walls.north = false →
                (advGrid g cur (downOf cur) q).walls.north = false) ∧
              ((g q).walls.south = false →
                (advGrid g cur (downOf cur) q).walls.south = false) := by
            intro q
            refine ⟨fun h => ?_, fun h => ?_, fun h => ?_, fun h => ?_⟩
            · rw [fE q]; exact h
            · rw [fW q]; exact h
            · rw [fN q]
              by_cases hc : q = downOf cur
              · rw [if_pos hc]
              · rw [if_neg hc]; exact h
            · rw [fS q]
              by_cases hc : q = cur
              · rw [if_pos hc]
              · rw [if_neg hc]; exact h
          have hclosed : (g cur).walls.south = true := by
            rcases Bool.eq_false_or_eq_true ((g cur).walls.south) with hc | hc
            · exact hc
            · exact absurd (inv.walls.southOpen cur hc).2.2.2.2 hnv
          have hWI : WallInv n (advGrid g cur (downOf cur)) :=
            WallInv_V_advance fS fN fE fW
              (fun q h => ((fV q).mp h).imp id Or.inr)
              (fun q h => (fV q).mpr (Or.inl h))
              ⟨hblt, hcb.1⟩
              ((fV cur).mpr (Or.inl (inv.stackVis cur (List.mem_cons_self _ _))))
              ((fV (downOf cur)).mpr (Or.inr rfl)) inv.walls
          have hcount := openEdgeCount_V_advance fS fN fE fW ⟨hblt, hcb.1⟩ hclosed
          have hadj : openAdj (advGrid g cur (downOf cur)) cur (downOf cur) := by
            refine Or.inr (Or.inr (Or.inl ⟨rfl, ?_, ?_⟩))
            · rw [fS cur, if_pos rfl]
            · rw [fN (downOf cur), if_pos rfl]
          exact walkInv_advance_final inv hnv hnb fV hmono hWI hcount hadj
        · subst heq
          obtain ⟨fS, fN, fE, fW, fV⟩ := advGrid_up_flags g next
          have hmono : ∀ q,
              ((g q).walls.east = false →
                (advGrid g (downOf next) next q).walls.east = false) ∧
              ((g q).walls.west = false →
                (advGrid g (downOf next) next q).walls.west = false) ∧
              ((g q).walls.north = false →
                (advGrid g (downOf next) next q).walls.north = false) ∧
              ((g q).walls.south = false →
                (advGrid g (downOf next) next q).walls.south = false) := by
            intro q
            refine ⟨fun h => ?_, fun h => ?_, fun h => ?_, fun h => ?_⟩
            · rw [fE q]; exact h
            · rw [fW q]; exact h
            · rw [fN q]
              by_cases hc : q = downOf next
              · rw [if_pos hc]
              · rw [if_neg hc]; exact h
            · rw [fS q]
              by_cases hc : q = next
              · rw [if_pos hc]
              · rw [if_neg hc]; exact h
          have hclosed : (g next).walls.south = true := by
            rcases Bool.eq_false_or_eq_true ((g next).walls.south) with hc | hc
            · exact hc
            · exact absurd (inv.walls.southOpen next hc).2.2.2.1 hnv
          have hnblt : next.2 + 1 < n := by
            have h1 : (downOf next).2 = next.2 + 1 := rfl
            have := hcb.2
            omega
          have hWI : WallInv n (advGrid g (downOf next) next) :=
            WallInv_V_advance fS fN fE fW
              (fun q h => ((fV q).mp h).imp id Or.inl)
              (fun q h => (fV q).mpr (Or.inl h))
              ⟨hnblt, hnb.1⟩
              ((fV next).mpr (Or.inr rfl))
              ((fV (downOf next)).mpr
                (Or.inl (inv.stackVis _ (List.mem_cons_self _ _)))) inv.walls
          have hcount := openEdgeCount_V_advance fS fN fE fW ⟨hnblt, hnb.1⟩ hclosed
          have hadj : openAdj (advGrid g (downOf next) next) (downOf next) next := by
            refine Or.inr (Or.inr (Or.inr ⟨rfl, ?_, ?_⟩))
            · rw [fS next, if_pos rfl]
            · rw [fN (downOf next), if_pos rfl]
          exact walkInv_advance_final inv hnv hnb fV hmono hWI hcount hadj
      have hvcount : visitedCount (advGrid g cur next) n = visitedCount g n + 1 := by
        rcases mem_gridNeighbors_cases hGn with
          ⟨heq, _⟩ | ⟨heq, _⟩ | ⟨heq, _⟩ | ⟨heq, _⟩
        · subst heq
          exact visitedCount_insert hnb hnv (advGrid_right_flags g cur).2.2.2.2
        · subst heq
          exact visitedCount_insert hnb hnv (advGrid_left_flags g next).2.2.2.2
        · subst heq
          exact visitedCount_insert hnb hnv (advGrid_down_flags g cur).2.2.2.2
        · subst heq
          exact visitedCount_insert hnb hnv (advGrid_up_flags g next).2.2.2.2
      rw [hstep, if_pos hA, if_neg hB]
      have hvlt : visitedCount g n < n * n := visitedCount_lt hnb hnv
      refine ⟨pack, hvcount, by simp, ?_, Or.inr rfl⟩
      intro _
      unfold walkMeasure
      simp only [List.length_cons, hvcount]
      omega

/-! # The invariant holds initially and at every iterate -/

theorem initGrid_marked (s0 q : Nat × Nat) :
    markVisited initGrid s0 q =
      if q = s0 then ⟨⟨true, true, true, true⟩, true⟩ else initCell := by
  by_cases h : q = s0
  · subst h
    rw [markVisited_self, if_pos rfl]
    rfl
  · rw [markVisited_other _ _ h, if_neg h]
    rfl

theorem walkInv_init' {n : Nat} {s0 : Nat × Nat} (hsb : inBounds n s0) (r : Nat) :
    WalkInv n s0 ⟨markVisited initGrid s0, [s0], r⟩ := by
  have hvis : ∀ q, (markVisited initGrid s0 q).visited = true ↔ q = s0 := by
    intro q
    rw [initGrid_marked]
    by_cases hq : q = s0
    · simp [hq]
    · simp [hq, initCell]
  have hwalls : ∀ q, (markVisited initGrid s0 q).walls = ⟨true, true, true, true⟩ := by
    intro q
    rw [initGrid_marked]
    by_cases hq : q = s0
    · simp [hq]
    · simp [hq, initCell]
  constructor
  · intro p hp
    rw [hvis p] at hp
    subst hp
    exact hsb
  · exact (hvis s0).mpr rfl
  · intro p hp
    rcases List.mem_singleton.mp hp with rfl
    exact (hvis p).mpr rfl
  · exact List.nodup_singleton s0
  · constructor <;> intro p hp <;> rw [hwalls p] at hp <;> cases hp
  · have hopen : openEdgeCount (markVisited initGrid s0) n = 0 := by
      unfold openEdgeCount
      have h1 : (Finset.range n ×ˢ Finset.range n).filter
          (fun p => p.1 + 1 < n ∧ edgeOpenH (markVisited initGrid s0) p) = ∅ := by
        rw [Finset.filter_eq_empty_iff]
        rintro p - ⟨-, hE, -⟩
        rw [hwalls p] at hE
        cases hE
      have h2 : (Finset.range n ×ˢ Finset.range n).filter
          (fun p => p.2 + 1 < n ∧ edgeOpenV (markVisited initGrid s0) p) = ∅ := by
        rw [Finset.filter_eq_empty_iff]
        rintro p - ⟨-, hS, -⟩
        rw [hwalls p] at hS
        cases hS
      rw [h1, h2]
      rfl
    have hone : visitedCount (markVisited initGrid s0) n = 1 := by
      unfold visitedCount
      have hset : (Finset.range n ×ˢ Finset.range n).filter
          (fun p => (markVisited initGrid s0 p).visited = true) = {s0} := by
        ext q
        simp only [Finset.mem_filter, Finset.mem_singleton, Finset.mem_product,
          Finset.mem_range]
        constructor
        · rintro ⟨-, hv⟩
          exact (hvis q).mp hv
        · rintro rfl
          exact ⟨hsb, (hvis q).mpr rfl⟩
      rw [hset, Finset.card_singleton]
    show openEdgeCount (markVisited initGrid s0) n + 1 =
      visitedCount (markVisited initGrid s0) n
    rw [hopen, hone]
  · intro p hp
    rw [hvis p] at hp
    subst hp
    exact Relation.ReflTransGen.refl
  · intro p hp hns
    rw [hvis p] at hp
    subst hp
    exact absurd (List.mem_singleton.mpr rfl) hns

theorem walkInv_init (n : Nat) (seed : Int) (h : 0 < n) :
    WalkInv n (scaledDraw n seed 0, scaledDraw n seed 1)
      (initialWalkState n seed) :=
  walkInv_init' ⟨scaledDraw_lt h seed 0, scaledDraw_lt h seed 1⟩
    (streamState seed 4)

theorem walkInv_iterate (n : Nat) (seed : Int) (h : 0 < n) (k : Nat) :
    WalkInv n (scaledDraw n seed 0, scaledDraw n seed 1) (walkStates n seed k) := by
  induction k with
  | zero => exact walkInv_init n seed h
  | succ k ih =>
    have := (mazeStep_full (walkStates n seed k) ih).1
    rwa [walkStates, Function.iterate_succ_apply', ← walkStates]

theorem iterate_stack_nil (n : Nat) {st : GenState} (h : st.stack = []) :
    ∀ k, (mazeStep n)^[k] st = st := by
  intro k
  induction k with
  | zero => rfl
  | succ k ih => rw [Function.iterate_succ_apply, mazeStep_nil h, ih]

theorem stack_empty_of_measure_lt {n : Nat} {s0 : Nat × Nat} :
    ∀ (k : Nat) (st : GenState), WalkInv n s0 st → walkMeasure n st < k →
      ((mazeStep n)^[k] st).stack = [] := by
  intro k
  induction k with
  | zero =>
    intro st _ hm
    cases hm
  | succ k ih =>
    intro st inv hm
    by_cases hst : st.stack = []
    · rw [iterate_stack_nil n hst]
      exact hst
    · rw [Function.iterate_succ_apply]
      have hfull := mazeStep_full st inv
      exact ih (mazeStep n st) hfull.1 (by
        have := hfull.2.2.2.1 hst
        omega)

theorem walkMeasure_init_lt (n : Nat) (seed : Int) (h : 0 < n) :
    walkMeasure n (initialWalkState n seed) < 2 * n * n + 1 := by
  unfold walkMeasure
  have h1 : visitedCount (initialWalkState n seed).grid n ≤ n * n :=
    visitedCount_le _ n
  have h2 : 1 ≤ visitedCount (initialWalkState n seed).grid n := by
    have hv := (walkInv_init n seed h).startVis
    unfold visitedCount
    refine Finset.card_pos.mpr ⟨(scaledDraw n seed 0, scaledDraw n seed 1), ?_⟩
    rw [Finset.mem_filter, Finset.mem_product, Finset.mem_range, Finset.mem_range]
    exact ⟨⟨scaledDraw_lt h seed 0, scaledDraw_lt h seed 1⟩, hv⟩
  have h3 : (initialWalkState n seed).stack.length = 1 := rfl
  rw [h3]
  have h4 : 0 < n * n := Nat.mul_pos h h
  have h5 : 2 * n * n = 2 * (n * n) := by ring
  omega

theorem finalWalk_stack_nil (n : Nat) (seed : Int) (h : 0 < n) :
    (walkStates n seed (2 * n * n + 1)).stack = [] :=
  stack_empty_of_measure_lt (2 * n * n + 1) (initialWalkState n seed)
    (walkInv_init n seed h) (walkMeasure_init_lt n seed h)

/-! # A set closed under grid adjacency that meets the grid covers it -/

theorem closed_set_covers {n : Nat} {s0 : Nat × Nat} (_hs : inBounds n s0)
    (S : Nat × Nat → Prop) (hS0 : S s0)
    (hclosed : ∀ p, S p → inBounds n p → ∀ q ∈ gridNeighbors n p, S q)
    (hbound : ∀ p, S p → inBounds n p) :
    ∀ p, inBounds n p → S p := by
  have hstepr : ∀ p, S p → p.1 + 1 < n → S (rightOf p) := by
    intro p hp hlt
    exact hclosed p hp (hbound p hp) (rightOf p) (mem_gridNeighbors_right hlt)
  have hstepl : ∀ q : Nat × Nat, S (rightOf q) → S q := by
    intro q hq
    have hb := hbound _ hq
    have hlt : q.1 + 1 < n := hb.1
    exact hclosed (rightOf q) hq hb q (mem_gridNeighbors_left hlt)
  have hstepd : ∀ p, S p → p.2 + 1 < n → S (downOf p) := by
    intro p hp hlt
    exact hclosed p hp (hbound p hp) (downOf p) (mem_gridNeighbors_down hlt)
  have hstepu : ∀ q : Nat × Nat, S (downOf q) → S q := by
    intro q hq
    have hb := hbound _ hq
    have hlt : q.2 + 1 < n := hb.2
    exact hclosed (downOf q) hq hb q (mem_gridNeighbors_up hlt)
  have hrowFwd : ∀ d, s0.1 + d < n → S (s0.1 + d, s0.2) := by
    intro d
    induction d with
    | zero =>
      intro _
      simpa using hS0
    | succ d ih =>
      intro hd
      have hprev : S (s0.1 + d, s0.2) := ih (by omega)
      have := hstepr (s0.1 + d, s0.2) hprev (by simpa using hd)
      simpa [rightOf] using this
  have hrowBwd : ∀ d, d ≤ s0.1 → S (s0.1 - d, s0.2) := by
    intro d
    induction d with
    | zero =>
      intro _
      simpa using hS0
    | succ d ih =>
      intro hd
      have hprev : S (s0.1 - d, s0.2) := ih (by omega)
      have heq : rightOf (s0.1 - (d + 1), s0.2) = (s0.1 - d, s0.2) := by
        simp only [rightOf]
        rw [Prod.mk.injEq]
        omega
      exact hstepl (s0.1 - (d + 1), s0.2) (by rw [heq]; exact hprev)
  have hrow : ∀ x, x < n → S (x, s0.2) := by
    intro x hx
    by_cases hc : s0.1 ≤ x
    · have := hrowFwd (x - s0.1) (by omega)
      have he : s0.1 + (x - s0.1) = x := by omega
      rwa [he] at this
    · have := hrowBwd (s0.1 - x) (by omega)
      have he : s0.1 - (s0.1 - x) = x := by omega
      rwa [he] at this
  intro p hp
  obtain ⟨hp1, hp2⟩ := hp
  have hx : S (p.1, s0.2) := hrow p.1 hp1
  have hcolFwd : ∀ d, s0.2 + d < n → S (p.1, s0.2 + d) := by
    intro d
    induction d with
    | zero =>
      intro _
      exact hx
    | succ d ih =>
      intro hd
      have hprev : S (p.1, s0.2 + d) := ih (by omega)
      have := hstepd (p.1, s0.2 + d) hprev (by simpa using hd)
      simpa [downOf] using this
  have hcolBwd : ∀ d, d ≤ s0.2 → S (p.1, s0.2 - d) := by
    intro d
    induction d with
    | zero =>
      intro _
      exact hx
    | succ d ih =>
      intro hd
      have hprev : S (p.1, s0.2 - d) := ih (by omega)
      have heq : downOf (p.1, s0.2 - (d + 1)) = (p.1, s0.2 - d) := by
        simp only [downOf]
        rw [Prod.mk.injEq]
        omega
      exact hstepu (p.1, s0.2 - (d + 1)) (by rw [heq]; exact hprev)
  by_cases hc : s0.2 ≤ p.2
  · have := hcolFwd (p.2 - s0.2) (by omega)
    have he : s0.2 + (p.2 - s0.2) = p.2 := by omega
    rw [he] at this
    simpa using this
  · have := hcolBwd (s0.2 - p.2) (by omega)
    have he : s0.2 - (s0.2 - p.2) = p.2 := by omega
    rw [he] at this
    simpa using this

/-! # After the walk every cell is visited -/

theorem finalWalk_all_visited (n : Nat) (seed : Int) (h : 0 < n) :
    ∀ p, inBounds n p → ((finalWalkGrid n seed) p).visited = true := by
  have inv := walkInv_iterate n seed h (2 * n * n + 1)
  have hnil := finalWalk_stack_nil n seed h
  have hs : inBounds n (scaledDraw n seed 0, scaledDraw n seed 1) :=
    ⟨scaledDraw_lt h seed 0, scaledDraw_lt h seed 1⟩
  refine closed_set_covers hs
    (fun p => ((walkStates n seed (2 * n * n + 1)).grid p).visited = true)
    inv.startVis ?_ inv.vbound
  intro p hp _ q hq
  refine inv.offStack p hp ?_ q hq
  rw [hnil]
  exact List.not_mem_nil p

/-! # Claim C3: the generated grid has exactly `N² - 1` open edges -/

/-- C3: for every positive size and every seed, the generated grid has
exactly `n² - 1` open edges (adjacent pairs whose shared wall was removed),
the edge count of a spanning tree on the `n²` cells. -/
theorem generateMaze_edge_count (n : Nat) (seed : Int) (r : MazeResult)
    (h : 0 < n) (hr : generateMaze n seed = .ok r) :
    openEdgeCount r.maze n = n * n - 1 := by
  rw [generateMaze_eq n seed h] at hr
  cases Except.ok.inj hr
  show openEdgeCount (finalWalkGrid n seed) n = n * n - 1
  have inv := walkInv_iterate n seed h (2 * n * n + 1)
  have hedges := inv.edges
  have hall := finalWalk_all_visited n seed h
  have hfull : visitedCount (finalWalkGrid n seed) n = n * n := by
    unfold visitedCount
    have hset : (Finset.range n ×ˢ Finset.range n).filter
        (fun p => ((finalWalkGrid n seed) p).visited = true) =
        Finset.range n ×ˢ Finset.range n := by
      refine Finset.filter_true_of_mem ?_
      intro p hp
      rw [Finset.mem_product, Finset.mem_range, Finset.mem_range] at hp
      exact hall p hp
    rw [hset, Finset.card_product, Finset.card_range]
  have : openEdgeCount (finalWalkGrid n seed) n + 1 = n * n := by
    rw [← hfull]
    exact hedges
  omega

/-- Witness for C3 at `size = 2`, `seed = 5`: the generated 2×2 grid has
exactly 3 open edges. -/
theorem generateMaze_edge_count_witness :
    ∃ r, generateMaze 2 5 = .ok r ∧ openEdgeCount r.maze 2 = 2 * 2 - 1 := by
  cases hg : generateMaze 2 5 with
  | error e =>
    have : isOkResult (generateMaze 2 5) = true := by decide
    rw [hg] at this
    cases this
  | ok r => exact ⟨r, rfl, generateMaze_edge_count 2 5 r (by decide) hg⟩

/-! # Step counting for claim C8 -/

theorem walkStates_succ (n : Nat) (seed : Int) (k : Nat) :
    walkStates n seed (k + 1) = mazeStep n (walkStates n seed k) := by
  unfold walkStates
  exact Function.iterate_succ_apply' (mazeStep n) k _

theorem visitedCount_markInit {n : Nat} {s0 : Nat × Nat} (hsb : inBounds n s0) :
    visitedCount (markVisited initGrid s0) n = 1 := by
  unfold visitedCount
  have hset : (Finset.range n ×ˢ Finset.range n).filter
      (fun p => (markVisited initGrid s0 p).visited = true) = {s0} := by
    ext q
    simp only [Finset.mem_filter, Finset.mem_singleton, Finset.mem_product,
      Finset.mem_range]
    constructor
    · rintro ⟨-, hv⟩
      rw [initGrid_marked] at hv
      by_cases hq : q = s0
      · exact hq
      · rw [if_neg hq] at hv
        cases hv
    · rintro rfl
      refine ⟨hsb, ?_⟩
      rw [initGrid_marked, if_pos rfl]
  rw [hset, Finset.card_singleton]

theorem visitedCount_walkStates (n : Nat) (seed : Int) (h : 0 < n) (k : Nat) :
    visitedCount (walkStates n seed k).grid n = 1 + advanceCount n seed k := by
  induction k with
  | zero =>
    have h0 : advanceCount n seed 0 = 0 := by
      unfold advanceCount
      exact Finset.sum_range_zero _
    rw [h0]
    exact visitedCount_markInit ⟨scaledDraw_lt h seed 0, scaledDraw_lt h seed 1⟩
  | succ k ih =>
    have hfull := mazeStep_full (walkStates n seed k) (walkInv_iterate n seed h k)
    have hstep := hfull.2.1
    have hsum : advanceCount n seed (k + 1) = advanceCount n seed k +
        (if isAdvance n (walkStates n seed k) then 1 else 0) := by
      unfold advanceCount
      exact Finset.sum_range_succ _ k
    rw [walkStates_succ, hstep, ih, hsum]
    omega

theorem stackLen_walkStates (n : Nat) (seed : Int) (h : 0 < n) (k : Nat) :
    (walkStates n seed k).stack.length + backtrackCount n seed k =
      1 + advanceCount n seed k := by
  induction k with
  | zero =>
    have h0 : advanceCount n seed 0 = 0 := Finset.sum_range_zero _
    have h1 : backtrackCount n seed 0 = 0 := Finset.sum_range_zero _
    rw [h0, h1]
    rfl
  | succ k ih =>
    have hfull := mazeStep_full (walkStates n seed k) (walkInv_iterate n seed h k)
    have hstep := hfull.2.2.1
    have hsumA : advanceCount n seed (k + 1) = advanceCount n seed k +
        (if isAdvance n (walkStates n seed k) then 1 else 0) :=
      Finset.sum_range_succ _ k
    have hsumB : backtrackCount n seed (k + 1) = backtrackCount n seed k +
        (if isBacktrack n (walkStates n seed k) then 1 else 0) :=
      Finset.sum_range_succ _ k
    rw [walkStates_succ, hsumA, hsumB]
    omega

/-! # Claim C8: termination of the generation loop -/

/-- C8: for every positive size the generation loop terminates within the
iteration budget with an empty stack; the walk performs at most `n²` advances
(each marking a previously-unvisited cell visited and pushing it) and at most
`n²` backtracks (each popping the stack); and for a 1×1 grid the walk removes
no wall at all (the single cell keeps all four walls). -/
theorem generateMaze_terminates (n : Nat) (seed : Int) (h : 0 < n) :
    (walkStates n seed (2 * n * n + 1)).stack = [] ∧
      advanceCount n seed (2 * n * n + 1) ≤ n * n ∧
      backtrackCount n seed (2 * n * n + 1) ≤ n * n ∧
      (n = 1 → ((walkStates n seed (2 * n * n + 1)).grid (0, 0)).walls =
        ⟨true, true, true, true⟩) := by
  have hA : 1 + advanceCount n seed (2 * n * n + 1) ≤ n * n := by
    rw [← visitedCount_walkStates n seed h]
    exact visitedCount_le _ n
  have hB := stackLen_walkStates n seed h (2 * n * n + 1)
  refine ⟨finalWalk_stack_nil n seed h, by omega, by omega, ?_⟩
  intro h1
  subst h1
  have hs00 : scaledDraw 1 seed 0 = 0 := by
    unfold scaledDraw
    rw [Nat.mul_one]
    exact Nat.div_eq_of_lt (drawOut_lt seed 0)
  have hs01 : scaledDraw 1 seed 1 = 0 := by
    unfold scaledDraw
    rw [Nat.mul_one]
    exact Nat.div_eq_of_lt (drawOut_lt seed 1)
  have e1 : initialWalkState 1 seed =
      ⟨markVisited initGrid (0, 0), [(0, 0)], streamState seed 4⟩ := by
    unfold initialWalkState
    rw [hs00, hs01]
  have hnb : getUnvisitedNeighbors (markVisited initGrid (0, 0)) 1 (0, 0) = [] := by
    rw [getUnvisitedNeighbors_eq]
    have hgn : gridNeighbors 1 ((0 : Nat), (0 : Nat)) = [] := rfl
    rw [hgn]
    rfl
  have e2 : mazeStep 1 (⟨markVisited initGrid (0, 0), [(0, 0)],
      streamState seed 4⟩ : GenState) =
      ⟨markVisited initGrid (0, 0), [], streamState seed 4⟩ := by
    rcases @mazeStep_cons_spec 1 ⟨markVisited initGrid (0, 0), [(0, 0)],
        streamState seed 4⟩ (0, 0) [] rfl with ⟨-, hstep⟩ | ⟨next, hmem, -⟩
    · exact hstep
    · rw [hnb] at hmem
      cases hmem
  have e3 : walkStates 1 seed (2 * 1 * 1 + 1) =
      ⟨markVisited initGrid (0, 0), [], streamState seed 4⟩ := by
    unfold walkStates
    rw [e1]
    have h3 : 2 * 1 * 1 + 1 = 2 + 1 := rfl
    rw [h3, Function.iterate_succ_apply, e2]
    exact iterate_stack_nil 1 rfl 2
  rw [e3]
  show (markVisited initGrid (0, 0) (0, 0)).walls = ⟨true, true, true, true⟩
  rw [initGrid_marked, if_pos rfl]

/-- Witness for C8 at `size = 1`, `seed = 5`, where the 1×1 conjunct bites. -/
theorem generateMaze_terminates_witness :
    (walkStates 1 5 (2 * 1 * 1 + 1)).stack = [] ∧
      advanceCount 1 5 (2 * 1 * 1 + 1) ≤ 1 * 1 ∧
      backtrackCount 1 5 (2 * 1 * 1 + 1) ≤ 1 * 1 ∧
      ((1 : Nat) = 1 → ((walkStates 1 5 (2 * 1 * 1 + 1)).grid (0, 0)).walls =
        ⟨true, true, true, true⟩) :=
  generateMaze_terminates 1 5 (by decide)

/-! # Claim C6: wall symmetry -/

theorem WallInv_toWallSym {n : Nat} {g : MazeGrid} (hw : WallInv n g) :
    wallSym g := by
  intro x y
  constructor
  · cases he : (g (x, y)).walls.east with
    | false =>
      have h1 := (hw.eastOpen (x, y) he).2.2.1
      have h4 : rightOf (x, y) = (x + 1, y) := rfl
      rw [h4] at h1
      rw [h1]
    | true =>
      cases hwv : (g (x + 1, y)).walls.west with
      | false =>
        have h2 := (hw.westOpen (x + 1, y) hwv).2
        have h3 : ((x + 1 : Nat), y).1 - 1 = x := by omega
        rw [show (((x + 1 : Nat), y).1 - 1, ((x + 1 : Nat), y).2) = (x, y) by
          rw [h3]] at h2
        rw [he] at h2
        cases h2
      | true => rfl
  · cases hs : (g (x, y)).walls.south with
    | false =>
      have h1 := (hw.southOpen (x, y) hs).2.2.1
      have h4 : downOf (x, y) = (x, y + 1) := rfl
      rw [h4] at h1
      rw [h1]
    | true =>
      cases hn : (g (x, y + 1)).walls.north with
      | false =>
        have h2 := (hw.northOpen (x, y + 1) hn).2
        have h3 : ((x, (y + 1 : Nat)).1, (x, (y + 1 : Nat)).2 - 1) = (x, y) := by
          rw [Prod.mk.injEq]
          omega
        rw [h3, hs] at h2
        cases h2
      | true => rfl

/-- C6: wall symmetry is an invariant of generation.  Initially every wall
flag is present on both sides of every edge; each `removeWall` call on two
orthogonally adjacent cells clears both matching flags (the flag of the
first cell facing the second and the flag of the second facing the first)
in the same operation; and at every point during and after generation the
two redundant flags of every shared wall agree. -/
theorem wall_symmetry :
    wallSym initGrid ∧
      (∀ p : Nat × Nat, (initGrid p).walls = ⟨true, true, true, true⟩) ∧
      (∀ (g : MazeGrid) (cur : Nat × Nat),
        ((removeWall g cur (rightOf cur)) cur).walls.east = false ∧
          ((removeWall g cur (rightOf cur)) (rightOf cur)).walls.west = false) ∧
      (∀ (g : MazeGrid) (cur : Nat × Nat),
        ((removeWall g cur (downOf cur)) cur).walls.south = false ∧
          ((removeWall g cur (downOf cur)) (downOf cur)).walls.north = false) ∧
      (∀ (g : MazeGrid) (next : Nat × Nat),
        ((removeWall g (rightOf next) next) (rightOf next)).walls.west = false ∧
          ((removeWall g (rightOf next) next) next).walls.east = false) ∧
      (∀ (g : MazeGrid) (next : Nat × Nat),
        ((removeWall g (downOf next) next) (downOf next)).walls.north = false ∧
          ((removeWall g (downOf next) next) next).walls.south = false) ∧
      (∀ (n : Nat) (seed : Int) (k : Nat), 0 < n →
        wallSym ((walkStates n seed k).grid)) ∧
      ∀ (n : Nat) (seed : Int) (r : MazeResult), 0 < n →
        generateMaze n seed = .ok r → wallSym r.maze := by
  refine ⟨fun x y => ⟨rfl, rfl⟩, fun p => rfl, ?_, ?_, ?_, ?_, ?_, ?_⟩
  · intro g cur
    rw [removeWall_right]
    constructor
    · rw [setCell_other _ _ _ (Ne.symm (rightOf_ne cur)), setCell_same]
      rfl
    · rw [setCell_same]
      rfl
  · intro g cur
    rw [removeWall_down]
    constructor
    · rw [setCell_other _ _ _ (Ne.symm (downOf_ne cur)), setCell_same]
      rfl
    · rw [setCell_same]
      rfl
  · intro g next
    rw [removeWall_left]
    constructor
    · rw [setCell_other _ _ _ (rightOf_ne next), setCell_same]
      rfl
    · rw [setCell_same]
      rfl
  · intro g next
    rw [removeWall_up]
    constructor
    · rw [setCell_other _ _ _ (downOf_ne next), setCell_same]
      rfl
    · rw [setCell_same]
      rfl
  · intro n seed k hn
    exact WallInv_toWallSym (walkInv_iterate n seed hn k).walls
  · intro n seed r hn hr
    rw [generateMaze_eq n seed hn] at hr
    cases Except.ok.inj hr
    exact WallInv_toWallSym
      (walkInv_iterate n seed hn (2 * n * n + 1)).walls

/-- Witness for C6: the walk state after 4 iterations at `size = 2`,
`seed = 3`, and the full generated grid there. -/
theorem wall_symmetry_witness :
    wallSym ((walkStates 2 3 4).grid) ∧
      ∃ r, generateMaze 2 3 = .ok r ∧ wallSym r.maze := by
  refine ⟨wall_symmetry.2.2.2.2.2.2.1 2 3 4 (by decide), ?_⟩
  cases hg : generateMaze 2 3 with
  | error e =>
    have hok : isOkResult (generateMaze 2 3) = true := by decide
    rw [hg] at hok
    cases hok
  | ok r =>
    exact ⟨r, rfl, wall_symmetry.2.2.2.2.2.2.2 2 3 r (by decide) hg⟩

/-! # Claim C2 (amended): the order of the RNG draws -/

/-- C2 (amended): the generator consumes the seeded stream in the fixed
order start-x, start-y, end-x, end-y — the first four draws, all taken
before the walk (lines 72-75) — and then the per-step neighbour-selection
draws during the backtracking walk: the walk starts at stream position 4 and
each iteration either leaves the generator state unchanged (backtrack or
idle) or advances it by exactly one call (advance). -/
theorem generateMaze_draw_order (n : Nat) (seed : Int) (h : 0 < n) :
    (∃ r, generateMaze n seed = .ok r ∧
      r.startPos = (scaledDraw n seed 0, scaledDraw n seed 1) ∧
      r.endPos = (scaledDraw n seed 2, scaledDraw n seed 3) ∧
      r.maze = (walkStates n seed (2 * n * n + 1)).grid) ∧
      (walkStates n seed 0).rng = streamState seed 4 ∧
      ∀ k, (walkStates n seed (k + 1)).rng = (walkStates n seed k).rng ∨
        (walkStates n seed (k + 1)).rng = mix (walkStates n seed k).rng := by
  refine ⟨⟨genResult n seed, generateMaze_eq n seed h, rfl, rfl, rfl⟩, rfl, ?_⟩
  intro k
  have hfull := mazeStep_full (walkStates n seed k) (walkInv_iterate n seed h k)
  rw [walkStates_succ]
  exact hfull.2.2.2.2

/-- Witness for C2's amended theorem at `size = 2`, `seed = 5`. -/
theorem generateMaze_draw_order_witness :
    (∃ r, generateMaze 2 5 = .ok r ∧
      r.startPos = (scaledDraw 2 5 0, scaledDraw 2 5 1) ∧
      r.endPos = (scaledDraw 2 5 2, scaledDraw 2 5 3) ∧
      r.maze = (walkStates 2 5 (2 * 2 * 2 + 1)).grid) ∧
      (walkStates 2 5 0).rng = streamState 5 4 ∧
      ∀ k, (walkStates 2 5 (k + 1)).rng = (walkStates 2 5 k).rng ∨
        (walkStates 2 5 (k + 1)).rng = mix (walkStates 2 5 k).rng :=
  generateMaze_draw_order 2 5 (by decide)

/-! # Claim C9 (amended): the dead-end counter -/

theorem list_filter_range_length (n : Nat) (p : Nat → Prop) [DecidablePred p] :
    ((List.range n).filter (fun x => decide (p x))).length =
      ((Finset.range n).filter p).card := by
  induction n with
  | zero => rfl
  | succ n ih =>
    rw [List.range_succ, List.filter_append, List.length_append,
      Finset.range_succ, Finset.filter_insert]
    by_cases hp : p n
    · rw [if_pos hp, Finset.card_insert_of_not_mem (by simp)]
      simp [hp, ih]
    · rw [if_neg hp]
      simp [hp, ih]

theorem list_map_sum_range (n : Nat) (F : Nat → Nat) :
    ((List.range n).map F).sum = ∑ y ∈ Finset.range n, F y := by
  induction n with
  | zero => rfl
  | succ n ih =>
    rw [List.range_succ, List.map_append, List.sum_append, Finset.sum_range_succ,
      ih]
    simp

theorem countDeadEnds_eq_card (g : MazeGrid) (n : Nat) :
    countDeadEnds g n =
      ((Finset.range n ×ˢ Finset.range n).filter
        (fun p => wallCount (g p) = 3)).card := by
  unfold countDeadEnds
  have hmem : ∀ p ∈ (Finset.range n ×ˢ Finset.range n).filter
      (fun p => wallCount (g p) = 3), Prod.snd p ∈ Finset.range n := by
    intro p hp
    rw [Finset.mem_filter, Finset.mem_product] at hp
    exact hp.1.2
  rw [Finset.card_eq_sum_card_fiberwise hmem, list_map_sum_range]
  refine Finset.sum_congr rfl ?_
  intro y hy
  rw [Finset.mem_range] at hy
  rw [list_filter_range_length n (fun x => wallCount (g (x, y)) = 3)]
  refine Finset.card_bij (fun x _ => (x, y)) ?_ ?_ ?_
  · intro x hx
    rw [Finset.mem_filter, Finset.mem_range] at hx
    rw [Finset.mem_filter, Finset.mem_filter, Finset.mem_product,
      Finset.mem_range, Finset.mem_range]
    exact ⟨⟨⟨hx.1, hy⟩, hx.2⟩, rfl⟩
  · intro x1 h1 x2 h2 he
    exact congrArg Prod.fst he
  · intro p hp
    rw [Finset.mem_filter, Finset.mem_filter, Finset.mem_product,
      Finset.mem_range, Finset.mem_range] at hp
    refine ⟨p.1, ?_, ?_⟩
    · rw [Finset.mem_filter, Finset.mem_range]
      refine ⟨hp.1.1.1, ?_⟩
      have : p = (p.1, y) := by
        rw [← hp.2]
      rw [← this]
      exact hp.1.2
    · exact Prod.ext rfl hp.2.symm

theorem walkStates_one_by_one (seed : Int) :
    walkStates 1 seed (2 * 1 * 1 + 1) =
      ⟨markVisited initGrid (0, 0), [], streamState seed 4⟩ := by
  have hs00 : scaledDraw 1 seed 0 = 0 := by
    unfold scaledDraw
    rw [Nat.mul_one]
    exact Nat.div_eq_of_lt (drawOut_lt seed 0)
  have hs01 : scaledDraw 1 seed 1 = 0 := by
    unfold scaledDraw
    rw [Nat.mul_one]
    exact Nat.div_eq_of_lt (drawOut_lt seed 1)
  have e1 : initialWalkState 1 seed =
      ⟨markVisited initGrid (0, 0), [(0, 0)], streamState seed 4⟩ := by
    unfold initialWalkState
    rw [hs00, hs01]
  have hnb : getUnvisitedNeighbors (markVisited initGrid (0, 0)) 1 (0, 0) = [] := by
    rw [getUnvisitedNeighbors_eq]
    have hgn : gridNeighbors 1 ((0 : Nat), (0 : Nat)) = [] := rfl
    rw [hgn]
    rfl
  have e2 : mazeStep 1 (⟨markVisited initGrid (0, 0), [(0, 0)],
      streamState seed 4⟩ : GenState) =
      ⟨markVisited initGrid (0, 0), [], streamState seed 4⟩ := by
    rcases @mazeStep_cons_spec 1 ⟨markVisited initGrid (0, 0), [(0, 0)],
        streamState seed 4⟩ (0, 0) [] rfl with ⟨-, hstep⟩ | ⟨next, hmem, -⟩
    · exact hstep
    · rw [hnb] at hmem
      cases hmem
  unfold walkStates
  rw [e1]
  have h3 : 2 * 1 * 1 + 1 = 2 + 1 := rfl
  rw [h3, Function.iterate_succ_apply, e2]
  exact iterate_stack_nil 1 rfl 2

/-- C9 (amended): `countDeadEnds` returns exactly the number of cells of the
`n × n` grid having exactly three of the four wall flags set — it is a pure
function of the grid, embedded as such — and for a generated 1×1 grid this
count is 0 (the single cell keeps all four walls), not 1. -/
theorem countDeadEnds_spec :
    (∀ (g : MazeGrid) (n : Nat), countDeadEnds g n =
      ((Finset.range n ×ˢ Finset.range n).filter
        (fun p => wallCount (g p) = 3)).card) ∧
      ∀ (seed : Int) (r : MazeResult), generateMaze 1 seed = .ok r →
        r.deadEnds = 0 := by
  refine ⟨countDeadEnds_eq_card, ?_⟩
  intro seed r hr
  rw [generateMaze_eq 1 seed (by decide)] at hr
  cases Except.ok.inj hr
  show countDeadEnds (finalWalkGrid 1 seed) 1 = 0
  have hg : finalWalkGrid 1 seed = markVisited initGrid (0, 0) := by
    unfold finalWalkGrid
    rw [walkStates_one_by_one]
  rw [hg]
  decide

/-- Witness for C9's amended theorem: the concrete count at seed 7, and the
cardinality form evaluated on the freshly initialized 2×2 grid. -/
theorem countDeadEnds_spec_witness :
    countDeadEnds initGrid 2 =
        ((Finset.range 2 ×ˢ Finset.range 2).filter
          (fun p => wallCount (initGrid p) = 3)).card ∧
      ∃ r, generateMaze 1 7 = .ok r ∧ r.deadEnds = 0 := by
  refine ⟨countDeadEnds_spec.1 initGrid 2, ?_⟩
  cases hg : generateMaze 1 7 with
  | error e =>
    have hok : isOkResult (generateMaze 1 7) = true := by decide
    rw [hg] at hok
    cases hok
  | ok r => exact ⟨r, rfl, countDeadEnds_spec.2 7 r hg⟩

/-! # Lookup and push lemmas for the BFS machinery -/

theorem lookupV_cons (t : Nat × Nat) (v : Option (Nat × Nat)) (m : VisMap)
    (k : Nat × Nat) :
    lookupV ((t, v) :: m) k = if k = t then some v else lookupV m k := rfl

theorem lookupV_ne_none_iff_mem (m : VisMap) (k : Nat × Nat) :
    lookupV m k ≠ none ↔ k ∈ keysOf m := by
  induction m with
  | nil => simp [lookupV, keysOf]
  | cons e rest ih =>
    obtain ⟨t, v⟩ := e
    rw [lookupV_cons]
    by_cases h : k = t
    · subst h
      simp [keysOf]
    · simp only [if_neg h, keysOf, List.map_cons, List.mem_cons]
      rw [ih]
      simp [keysOf, h]

theorem sizeV_eq_length (m : VisMap) : sizeV m = m.length := by
  induction m with
  | nil => rfl
  | cons e rest ih =>
    show sizeV rest + 1 = rest.length + 1
    rw [ih]

theorem keysOf_length (m : VisMap) : (keysOf m).length = sizeV m := by
  rw [sizeV_eq_length]
  exact List.length_map m Prod.fst

theorem bfsPush_pushOut (g : MazeGrid) (n : Nat) (p t : Nat × Nat) (d : Nat)
    (cond : Prop) [Decidable cond] (qm : List BfsNode × VisMap)
    (himp : cond → openStep g n p t) :
    PushOut g n p d qm (bfsPush p t d cond qm) := by
  unfold bfsPush
  by_cases h : cond ∧ lookupV qm.2 t = none
  · rw [if_pos h]
    exact Or.inr ⟨t, himp h.1, h.2, rfl⟩
  · rw [if_neg h]
    exact Or.inl rfl

theorem bfsPush_mono (p t : Nat × Nat) (d : Nat) (cond : Prop) [Decidable cond]
    (qm : List BfsNode × VisMap) (k : Nat × Nat)
    (h : (lookupV qm.2 k).isSome = true) :
    (lookupV (bfsPush p t d cond qm).2 k).isSome = true := by
  unfold bfsPush
  by_cases hc : cond ∧ lookupV qm.2 t = none
  · rw [if_pos hc]
    show (lookupV ((t, some p) :: qm.2) k).isSome = true
    rw [lookupV_cons]
    by_cases hk : k = t
    · rw [if_pos hk]
      rfl
    · rw [if_neg hk]
      exact h
  · rw [if_neg hc]
    exact h

theorem bfsPush_covers (p t : Nat × Nat) (d : Nat) (cond : Prop) [Decidable cond]
    (qm : List BfsNode × VisMap) (hc : cond) :
    (lookupV (bfsPush p t d cond qm).2 t).isSome = true := by
  unfold bfsPush
  by_cases h : cond ∧ lookupV qm.2 t = none
  · rw [if_pos h]
    show (lookupV ((t, some p) :: qm.2) t).isSome = true
    rw [lookupV_cons, if_pos rfl]
    rfl
  · rw [if_neg h]
    rcases Option.eq_none_or_eq_some (lookupV qm.2 t) with hn | ⟨v, hv⟩
    · exact absurd ⟨hc, hn⟩ h
    · rw [hv]
      rfl

theorem bfsExpand_pushes (g : MazeGrid) (n : Nat) (x y dist : Nat)
    (q : List BfsNode) (m : VisMap) :
    Pushes g n (x, y) dist (q, m) (bfsExpand g n x y dist q m) := by
  unfold bfsExpand
  refine Pushes.step _ _ _ (bfsPush_pushOut g n (x, y) (x, y - 1) dist _ _ ?_)
    (Pushes.step _ _ _ (bfsPush_pushOut g n (x, y) (x, y + 1) dist _ _ ?_)
      (Pushes.step _ _ _ (bfsPush_pushOut g n (x, y) (x + 1, y) dist _ _ ?_)
        (Pushes.step _ _ _ (bfsPush_pushOut g n (x, y) (x - 1, y) dist _ _ ?_)
          (Pushes.refl _))))
  · intro hc
    exact Or.inl ⟨hc.1, hc.2, rfl⟩
  · intro hc
    exact Or.inr (Or.inl ⟨hc.1, hc.2, rfl⟩)
  · intro hc
    exact Or.inr (Or.inr (Or.inl ⟨hc.1, hc.2, rfl⟩))
  · intro hc
    exact Or.inr (Or.inr (Or.inr ⟨hc.1, hc.2, rfl⟩))

theorem bfsExpand_covers (g : MazeGrid) (n : Nat) (x y dist : Nat)
    (q : List BfsNode) (m : VisMap) (t : Nat × Nat)
    (h : openStep g n (x, y) t) :
    (lookupV (bfsExpand g n x y dist q m).2 t).isSome = true := by
  unfold bfsExpand
  rcases h with ⟨h1, h2, h3⟩ | ⟨h1, h2, h3⟩ | ⟨h1, h2, h3⟩ | ⟨h1, h2, h3⟩
  · subst h3
    exact bfsPush_mono _ _ _ _ _ _ (bfsPush_mono _ _ _ _ _ _
      (bfsPush_mono _ _ _ _ _ _ (bfsPush_covers _ _ _ _ _ ⟨h1, h2⟩)))
  · subst h3
    exact bfsPush_mono _ _ _ _ _ _ (bfsPush_mono _ _ _ _ _ _
      (bfsPush_covers _ _ _ _ _ ⟨h1, h2⟩))
  · subst h3
    exact bfsPush_mono _ _ _ _ _ _ (bfsPush_covers _ _ _ _ _ ⟨h1, h2⟩)
  · subst h3
    exact bfsPush_covers _ _ _ _ _ ⟨h1, h2⟩

/-! # The combined effect of a push sequence -/

theorem pushes_spec {g : MazeGrid} {n : Nat} {p : Nat × Nat} {d : Nat} :
    ∀ {qm qm' : List BfsNode × VisMap}, Pushes g n p d qm qm' →
      ∃ news : List BfsNode,
        qm'.1 = qm.1 ++ news ∧
          sizeV qm'.2 = sizeV qm.2 + news.length ∧
          (∀ k, lookupV qm.2 k ≠ none → lookupV qm'.2 k = lookupV qm.2 k) ∧
          (∀ nd ∈ news, nd.dist = d + 1 ∧ lookupV qm.2 (nd.x, nd.y) = none ∧
            lookupV qm'.2 (nd.x, nd.y) = some (some p) ∧
            openStep g n p (nd.x, nd.y)) ∧
          (∀ k, lookupV qm.2 k = none → lookupV qm'.2 k ≠ none →
            ∃ nd ∈ news, (nd.x, nd.y) = k) ∧
          ((keysOf qm.2).Nodup → (keysOf qm'.2).Nodup) ∧
          (news.map (fun nd => (nd.x, nd.y))).Nodup := by
  intro qm qm' hp
  induction hp with
  | refl qm =>
    exact ⟨[], by simp, by simp, fun k _ => rfl, by simp, by simp, id, by simp⟩
  | step qm₁ qm₂ qm₃ hpo _ ih =>
    obtain ⟨news₂, hq, hsz, hpres, hnews, hconv, hnd, hcnd⟩ := ih
    rcases hpo with rfl | ⟨t, hto, htn, rfl⟩
    · exact ⟨news₂, hq, hsz, hpres, hnews, hconv, hnd, hcnd⟩
    · refine ⟨⟨t.1, t.2, d + 1⟩ :: news₂, ?_, ?_, ?_, ?_, ?_, ?_, ?_⟩
      · rw [hq]
        simp
      · rw [hsz]
        show sizeV qm₁.2 + 1 + news₂.length = sizeV qm₁.2 + (news₂.length + 1)
        omega
      · intro k hk
        have hkt : k ≠ t := by
          intro hc
          subst hc
          exact hk htn
        have h2 : lookupV ((t, some p) :: qm₁.2) k = lookupV qm₁.2 k := by
          rw [lookupV_cons, if_neg hkt]
        rw [hpres k (by rw [h2]; exact hk)]
        exact h2
      · intro nd hnd'
        rcases List.mem_cons.mp hnd' with rfl | hmem
        · refine ⟨rfl, htn, ?_, by simpa using hto⟩
          have h2 : lookupV ((t, some p) :: qm₁.2) (t.1, t.2) = some (some p) := by
            rw [lookupV_cons, if_pos (Prod.ext rfl rfl)]
          rw [hpres (t.1, t.2) (by rw [h2]; exact Option.some_ne_none _)]
          exact h2
        · obtain ⟨hd1, hd2, hd3, hd4⟩ := hnews nd hmem
          refine ⟨hd1, ?_, hd3, hd4⟩
          rw [lookupV_cons] at hd2
          by_cases hc : (nd.x, nd.y) = t
          · rw [if_pos hc] at hd2
            cases hd2
          · rw [if_neg hc] at hd2
            exact hd2
      · intro k hk1 hk3
        by_cases hkt : k = t
        · subst hkt
          exact ⟨⟨k.1, k.2, d + 1⟩, List.mem_cons_self _ _, Prod.ext rfl rfl⟩
        · have h2 : lookupV ((t, some p) :: qm₁.2) k = none := by
            rw [lookupV_cons, if_neg hkt]
            exact hk1
          obtain ⟨nd, hm, hcoord⟩ := hconv k h2 hk3
          exact ⟨nd, List.mem_cons.mpr (Or.inr hm), hcoord⟩
      · intro hnodup
        refine hnd ?_
        show (t :: keysOf qm₁.2).Nodup
        refine List.nodup_cons.mpr ⟨?_, hnodup⟩
        intro hc
        exact ((lookupV_ne_none_iff_mem qm₁.2 t).mpr hc) htn
      · refine List.nodup_cons.mpr ⟨?_, hcnd⟩
        intro hc
        rw [List.mem_map] at hc
        obtain ⟨nd, hm, he⟩ := hc
        have := (hnews nd hm).2.1
        rw [lookupV_cons] at this
        have he' : (nd.x, nd.y) = t := by
          rw [he]
        rw [if_pos he'] at this
        cases this

/-! # BFS completeness (claim C4) -/

theorem openStep_inBounds {g : MazeGrid} {n : Nat} {p t : Nat × Nat}
    (hp : inBounds n p) (h : openStep g n p t) : inBounds n t := by
  obtain ⟨hp1, hp2⟩ := hp
  rcases h with ⟨-, h2, h3⟩ | ⟨-, h2, h3⟩ | ⟨-, h2, h3⟩ | ⟨-, h2, h3⟩ <;> subst h3
  · exact ⟨hp1, by omega⟩
  · exact ⟨hp1, by omega⟩
  · exact ⟨by omega, hp2⟩
  · exact ⟨by omega, hp2⟩

theorem sizeV_le_of_bounded {n : Nat} {m : VisMap}
    (hnd : (keysOf m).Nodup) (hb : ∀ k ∈ keysOf m, inBounds n k) :
    sizeV m ≤ n * n := by
  rw [← keysOf_length]
  have h1 : (keysOf m).toFinset.card = (keysOf m).length :=
    List.toFinset_card_of_nodup hnd
  rw [← h1]
  have h2 : (keysOf m).toFinset ⊆ Finset.range n ×ˢ Finset.range n := by
    intro k hk
    rw [List.mem_toFinset] at hk
    rw [Finset.mem_product, Finset.mem_range, Finset.mem_range]
    exact hb k hk
  calc (keysOf m).toFinset.card ≤ (Finset.range n ×ˢ Finset.range n).card :=
        Finset.card_le_card h2
    _ = n * n := by rw [Finset.card_product, Finset.card_range]

theorem bfsReach_step {g : MazeGrid} {n ex ey : Nat} {nd : BfsNode}
    {rest : List BfsNode} {m : VisMap}
    (inv : BfsReach g n ex ey (nd :: rest) m)
    (hne : ¬(nd.x = ex ∧ nd.y = ey)) :
    BfsReach g n ex ey (bfsExpand g n nd.x nd.y nd.dist rest m).1
        (bfsExpand g n nd.x nd.y nd.dist rest m).2 ∧
      (bfsExpand g n nd.x nd.y nd.dist rest m).1.length +
          (n * n - sizeV (bfsExpand g n nd.x nd.y nd.dist rest m).2) + 1 ≤
        (nd :: rest : List BfsNode).length + (n * n - sizeV m) ∧
      ∀ k, (lookupV m k).isSome = true →
        (lookupV (bfsExpand g n nd.x nd.y nd.dist rest m).2 k).isSome = true := by
  have hpushes := bfsExpand_pushes g n nd.x nd.y nd.dist rest m
  obtain ⟨news, hq, hsz, hpres, hnews, hconv, hnd, -⟩ := pushes_spec hpushes
  have hq' : (bfsExpand g n nd.x nd.y nd.dist rest m).1 = rest ++ news := hq
  have hsz' : sizeV (bfsExpand g n nd.x nd.y nd.dist rest m).2 =
      sizeV m + news.length := hsz
  have hndb : inBounds n (nd.x, nd.y) := by
    refine inv.keysBound (nd.x, nd.y) ?_
    rw [← lookupV_ne_none_iff_mem]
    exact Option.isSome_iff_ne_none.mp (inv.queueKeys nd (List.mem_cons_self _ _))
  have hpres' : ∀ k, (lookupV m k).isSome = true →
      (lookupV (bfsExpand g n nd.x nd.y nd.dist rest m).2 k).isSome = true := by
    intro k hk
    rw [Option.isSome_iff_ne_none] at hk ⊢
    rw [hpres k hk]
    exact hk
  have hkeys' : ∀ k, (lookupV (bfsExpand g n nd.x nd.y nd.dist rest m).2 k).isSome
      = true → (lookupV m k).isSome = true ∨ ∃ nd' ∈ news, (nd'.x, nd'.y) = k := by
    intro k hk
    rw [Option.isSome_iff_ne_none] at hk
    rcases Option.eq_none_or_eq_some (lookupV m k) with hn | ⟨v, hv⟩
    · exact Or.inr (hconv k hn hk)
    · refine Or.inl ?_
      rw [hv]
      rfl
  have hnewsKeys : ∀ nd' ∈ news,
      (lookupV (bfsExpand g n nd.x nd.y nd.dist rest m).2 (nd'.x, nd'.y)).isSome
        = true := by
    intro nd' h
    rw [Option.isSome_iff_ne_none, (hnews nd' h).2.2.1]
    exact Option.some_ne_none _
  refine ⟨?_, ?_⟩
  · constructor
    · exact hnd inv.keysNodup
    · intro k hk
      rw [← lookupV_ne_none_iff_mem, ← Option.isSome_iff_ne_none] at hk
      rcases hkeys' k hk with h | ⟨nd', hm, hc⟩
      · refine inv.keysBound k ?_
        rw [← lookupV_ne_none_iff_mem, ← Option.isSome_iff_ne_none]
        exact h
      · subst hc
        exact openStep_inBounds hndb (hnews nd' hm).2.2.2
    · intro nd' h
      rw [hq] at h
      rcases List.mem_append.mp h with h | h
      · exact hpres' _ (inv.queueKeys nd' (List.mem_cons.mpr (Or.inr h)))
      · exact hnewsKeys nd' h
    · intro k hk hkq t hstep
      by_cases hkp : k = (nd.x, nd.y)
      · subst hkp
        exact bfsExpand_covers g n nd.x nd.y nd.dist rest m t hstep
      · rcases hkeys' k hk with hkold | ⟨nd', hm, hc⟩
        · have hknq : k ∉ queueCoords (nd :: rest) := by
            intro hc
            rcases List.mem_cons.mp hc with h | h
            · exact hkp h
            · refine hkq ?_
              rw [hq]
              unfold queueCoords
              rw [List.map_append, List.mem_append]
              exact Or.inl h
          exact hpres' t (inv.expandedClosed k hkold hknq t hstep)
        · exfalso
          refine hkq ?_
          rw [hq]
          unfold queueCoords
          rw [List.map_append, List.mem_append]
          refine Or.inr ?_
          rw [List.mem_map]
          exact ⟨nd', hm, hc⟩
    · intro hk
      rcases hkeys' (ex, ey) hk with hkold | ⟨nd', hm, hc⟩
      · have := inv.endPending hkold
        rcases List.mem_cons.mp this with h | h
        · exfalso
          have h' : (ex, ey) = (nd.x, nd.y) := h
          exact hne ⟨(congrArg Prod.fst h').symm, (congrArg Prod.snd h').symm⟩
        · rw [hq]
          unfold queueCoords
          rw [List.map_append, List.mem_append]
          exact Or.inl h
      · rw [hq]
        unfold queueCoords
        rw [List.map_append, List.mem_append]
        refine Or.inr ?_
        rw [List.mem_map]
        exact ⟨nd', hm, hc⟩
  · rw [hq', hsz', List.length_append, List.length_cons]
    have hszle : sizeV m + news.length ≤ n * n := by
      have hnd' := hnd inv.keysNodup
      have hb' : ∀ k ∈ keysOf (bfsExpand g n nd.x nd.y nd.dist rest m).2,
          inBounds n k := by
        intro k hk
        rw [← lookupV_ne_none_iff_mem, ← Option.isSome_iff_ne_none] at hk
        rcases hkeys' k hk with h | ⟨nd', hm, hc⟩
        · refine inv.keysBound k ?_
          rw [← lookupV_ne_none_iff_mem, ← Option.isSome_iff_ne_none]
          exact h
        · subst hc
          exact openStep_inBounds hndb (hnews nd' hm).2.2.2
      have := sizeV_le_of_bounded hnd' hb'
      rw [hsz'] at this
      exact this
    refine ⟨by omega, hpres'⟩

theorem reconstruct_ne_nil (m : VisMap) (p : Nat × Nat) (fuel : Nat)
    (h : 0 < fuel) : reconstruct m p fuel ≠ [] := by
  cases fuel with
  | zero => cases h
  | succ fuel =>
    show reconstruct m p (fuel + 1) ≠ []
    unfold reconstruct
    cases hl : lookupV m p with
    | none => simp
    | some v =>
      cases v with
      | none => simp
      | some q => simp

theorem bfsLoop_completes (g : MazeGrid) (n ex ey : Nat) :
    ∀ (fuel : Nat) (queue : List BfsNode) (m : VisMap),
      BfsReach g n ex ey queue m →
      queue.length + (n * n - sizeV m) < fuel →
      (∃ k, (lookupV m k).isSome = true ∧
        Relation.ReflTransGen (openStep g n) k (ex, ey)) →
      bfsLoop g n ex ey fuel queue m ≠ [] := by
  intro fuel
  induction fuel with
  | zero =>
    intro queue m _ hf _
    cases hf
  | succ fuel ih =>
    intro queue m inv hf hex
    cases queue with
    | nil =>
      exfalso
      obtain ⟨k, hk, hreach⟩ := hex
      have hclosed : ∀ t, Relation.ReflTransGen (openStep g n) k t →
          (lookupV m t).isSome = true := by
        intro t ht
        induction ht with
        | refl => exact hk
        | tail hab hbc ihh =>
          exact inv.expandedClosed _ ihh (by simp [queueCoords]) _ hbc
      have hend := inv.endPending (hclosed _ hreach)
      simp [queueCoords] at hend
    | cons nd rest =>
      show bfsLoop g n ex ey (fuel + 1) (nd :: rest) m ≠ []
      rw [bfsLoop]
      by_cases hend : nd.x = ex ∧ nd.y = ey
      · rw [if_pos hend]
        exact reconstruct_ne_nil m (nd.x, nd.y) (sizeV m + 1) (by omega)
      · rw [if_neg hend]
        obtain ⟨inv', hmeas, hpres⟩ := bfsReach_step inv hend
        refine ih _ _ inv' ?_ ?_
        · have hlc : (nd :: rest : List BfsNode).length = rest.length + 1 :=
            List.length_cons nd rest
          omega
        · obtain ⟨k, hk, hr⟩ := hex
          exact ⟨k, hpres k hk, hr⟩

/-! # Bridging open adjacency and BFS moves -/

theorem openAdj_symm {g : MazeGrid} : Symmetric (openAdj g) := by
  intro p q h
  rcases h with h | h | h | h
  · exact Or.inr (Or.inl h)
  · exact Or.inl h
  · exact Or.inr (Or.inr (Or.inr h))
  · exact Or.inr (Or.inr (Or.inl h))

theorem openAdj_to_openStep {n : Nat} {g : MazeGrid} (hw : WallInv n g)
    {p q : Nat × Nat} (h : openAdj g p q) : openStep g n p q := by
  rcases h with ⟨heq, h1, h2⟩ | ⟨heq, h1, h2⟩ | ⟨heq, h1, h2⟩ | ⟨heq, h1, h2⟩
  · refine Or.inr (Or.inr (Or.inl ⟨h1, ?_, ?_⟩))
    · have := (hw.eastOpen p h1).1
      omega
    · rw [heq]
      rfl
  · refine Or.inr (Or.inr (Or.inr ⟨?_, ?_, ?_⟩))
    · rw [heq]
      exact h2
    · rw [heq]
      simp [rightOf]
    · rw [heq]
      exact Prod.ext (by simp [rightOf]) (by simp [rightOf])
  · refine Or.inr (Or.inl ⟨h1, ?_, ?_⟩)
    · have := (hw.southOpen p h1).1
      omega
    · rw [heq]
      rfl
  · refine Or.inl ⟨?_, ?_, ?_⟩
    · rw [heq]
      exact h2
    · rw [heq]
      simp [downOf]
    · rw [heq]
      exact Prod.ext (by simp [downOf]) (by simp [downOf])

/-! # Claim C4: connectivity and a nonempty solution path -/

/-- C4: every generated grid is fully connected — every cell is reachable
from every other cell through open (wall-free) adjacencies — and
consequently the BFS solver applied to the seed-derived start and end
coordinates never returns an empty sequence. -/
theorem generateMaze_connected (n : Nat) (seed : Int) (r : MazeResult)
    (h : 0 < n) (hr : generateMaze n seed = .ok r) :
    (∀ p q, inBounds n p → inBounds n q →
      Relation.ReflTransGen (openAdj r.maze) p q) ∧
      r.solutionPath ≠ [] := by
  rw [generateMaze_eq n seed h] at hr
  cases Except.ok.inj hr
  have inv := walkInv_iterate n seed h (2 * n * n + 1)
  have hall := finalWalk_all_visited n seed h
  have hreach : ∀ p, inBounds n p →
      Relation.ReflTransGen (openAdj (finalWalkGrid n seed))
        (scaledDraw n seed 0, scaledDraw n seed 1) p := by
    intro p hp
    exact inv.reach p (hall p hp)
  have hRT := Relation.ReflTransGen.symmetric
    (@openAdj_symm (finalWalkGrid n seed))
  constructor
  · intro p q hp hq
    exact Relation.ReflTransGen.trans (hRT (hreach p hp)) (hreach q hq)
  · show findPath (finalWalkGrid n seed) n (scaledDraw n seed 0)
      (scaledDraw n seed 1) (scaledDraw n seed 2) (scaledDraw n seed 3) ≠ []
    unfold findPath
    have hsb : inBounds n (scaledDraw n seed 0, scaledDraw n seed 1) :=
      ⟨scaledDraw_lt h seed 0, scaledDraw_lt h seed 1⟩
    have heb : inBounds n (scaledDraw n seed 2, scaledDraw n seed 3) :=
      ⟨scaledDraw_lt h seed 2, scaledDraw_lt h seed 3⟩
    refine bfsLoop_completes (finalWalkGrid n seed) n (scaledDraw n seed 2)
      (scaledDraw n seed 3) (n * n + 1)
      [⟨scaledDraw n seed 0, scaledDraw n seed 1, 0⟩]
      [((scaledDraw n seed 0, scaledDraw n seed 1), none)] ?_ ?_ ?_
    · constructor
      · simp [keysOf]
      · intro k hk
        simp only [keysOf, List.map_cons, List.map_nil, List.mem_singleton] at hk
        subst hk
        exact hsb
      · intro nd hnd
        rw [List.mem_singleton] at hnd
        subst hnd
        show (lookupV [((scaledDraw n seed 0, scaledDraw n seed 1), none)]
          (scaledDraw n seed 0, scaledDraw n seed 1)).isSome = true
        rw [lookupV_cons, if_pos rfl]
        rfl
      · intro k hk hkq t _
        exfalso
        refine hkq ?_
        rw [Option.isSome_iff_ne_none, lookupV_cons] at hk
        by_cases hc : k = (scaledDraw n seed 0, scaledDraw n seed 1)
        · subst hc
          simp [queueCoords]
        · rw [if_neg hc] at hk
          exact absurd rfl hk
      · intro hk
        rw [Option.isSome_iff_ne_none, lookupV_cons] at hk
        by_cases hc : (scaledDraw n seed 2, scaledDraw n seed 3) =
            (scaledDraw n seed 0, scaledDraw n seed 1)
        · rw [hc]
          simp [queueCoords]
        · rw [if_neg hc] at hk
          exact absurd rfl hk
    · have hsz : sizeV [((scaledDraw n seed 0, scaledDraw n seed 1),
          (none : Option (Nat × Nat)))] = 1 := rfl
      rw [hsz]
      have : 0 < n * n := Nat.mul_pos h h
      simp only [List.length_cons, List.length_nil]
      omega
    · refine ⟨(scaledDraw n seed 0, scaledDraw n seed 1), ?_, ?_⟩
      · rw [lookupV_cons, if_pos rfl]
        rfl
      · exact (hreach (scaledDraw n seed 2, scaledDraw n seed 3) heb).mono
          (fun a b hab => openAdj_to_openStep inv.walls hab)

/-- Witness for C4 at `size = 2`, `seed = 3`. -/
theorem generateMaze_connected_witness :
    ∃ r, generateMaze 2 3 = .ok r ∧
      Relation.ReflTransGen (openAdj r.maze) (0, 0) (1, 1) ∧
      r.solutionPath ≠ [] := by
  cases hg : generateMaze 2 3 with
  | error e =>
    have hok : isOkResult (generateMaze 2 3) = true := by decide
    rw [hg] at hok
    cases hok
  | ok r =>
    have h := generateMaze_connected 2 3 r (by decide) hg
    exact ⟨r, rfl, h.1 (0, 0) (1, 1) (by decide) (by decide), h.2⟩

/-! # Predecessor chains: basic properties -/

theorem traces_mem {g : MazeGrid} {n : Nat} {m : VisMap} {s k : Nat × Nat}
    {j : Nat} (h : Traces g n m s k j) : lookupV m k ≠ none := by
  cases h with
  | base hs =>
    rw [hs]
    exact Option.some_ne_none _
  | step k p j hl ht ho =>
    rw [hl]
    exact Option.some_ne_none _

theorem traces_fun {g : MazeGrid} {n : Nat} {m : VisMap} {s : Nat × Nat} :
    ∀ {k : Nat × Nat} {j₁ : Nat}, Traces g n m s k j₁ →
      ∀ {j₂ : Nat}, Traces g n m s k j₂ → j₁ = j₂ := by
  intro k j₁ h1
  induction h1 with
  | base hs =>
    intro j₂ h2
    cases h2 with
    | base _ => rfl
    | step _ p j hl ht ho =>
      have hc := hs.symm.trans hl
      simp at hc
  | step k' p j hl ht ho ih =>
    intro j₂ h2
    cases h2 with
    | base hs =>
      have hc := hs.symm.trans hl
      simp at hc
    | step _ p' j' hl' ht' ho' =>
      have hpp : p = p' := by
        have := hl.symm.trans hl'
        simpa using this
      subst hpp
      rw [ih ht']

theorem traces_lift {g : MazeGrid} {n : Nat} {m m' : VisMap} {s : Nat × Nat}
    (hpres : ∀ k, lookupV m k ≠ none → lookupV m' k = lookupV m k) :
    ∀ {k : Nat × Nat} {j : Nat}, Traces g n m s k j → Traces g n m' s k j := by
  intro k j h
  induction h with
  | base hs =>
    refine Traces.base ?_
    rw [hpres s (by rw [hs]; exact Option.some_ne_none _), hs]
  | step k' p j hl ht ho ih =>
    refine Traces.step k' p j ?_ ih ho
    rw [hpres k' (by rw [hl]; exact Option.some_ne_none _), hl]

theorem traces_back {g : MazeGrid} {n : Nat} {m m' : VisMap} {s p : Nat × Nat}
    {dn : Nat}
    (hpres : ∀ k, lookupV m k ≠ none → lookupV m' k = lookupV m k)
    (hnews : ∀ k, lookupV m k = none → lookupV m' k ≠ none →
      lookupV m' k = some (some p))
    (hpk : lookupV m p ≠ none)
    (hpd : Traces g n m s p dn)
    (hstart : lookupV m s = some none)
    (hpreds : ∀ k q, lookupV m k = some (some q) → lookupV m q ≠ none) :
    ∀ {k : Nat × Nat} {j : Nat}, Traces g n m' s k j →
      (lookupV m k ≠ none ∧ Traces g n m s k j) ∨
        (lookupV m k = none ∧ j = dn + 1) := by
  intro k j h
  induction h with
  | base hs' =>
    left
    exact ⟨by rw [hstart]; exact Option.some_ne_none _, Traces.base hstart⟩
  | step k' p' j hl' ht' ho' ih =>
    by_cases hk : lookupV m k' = none
    · right
      refine ⟨hk, ?_⟩
      have hv := hnews k' hk (by rw [hl']; exact Option.some_ne_none _)
      have hpp : p' = p := by
        have := hl'.symm.trans hv
        simpa using this
      subst hpp
      rcases ih with ⟨hmem, htm⟩ | ⟨hnone, -⟩
      · rw [traces_fun htm hpd]
      · exact absurd hnone hpk
    · left
      have hl : lookupV m k' = some (some p') := by
        rw [← hpres k' hk]
        exact hl'
      rcases ih with ⟨hmem, htm⟩ | ⟨hnone, -⟩
      · exact ⟨hk, Traces.step k' p' j hl htm ho'⟩
      · exact absurd hnone (hpreds k' p' hl)

/-! # Properties of solver routes -/

theorem pathTo_ne_nil {g : MazeGrid} {n : Nat} {s v : Nat × Nat}
    {l : List (Nat × Nat)} (h : PathTo g n s v l) : l ≠ [] := by
  intro hc
  rw [hc] at h
  cases h.1

theorem pathTo_single {g : MazeGrid} {n : Nat} {s v : Nat × Nat}
    {l : List (Nat × Nat)} (h : PathTo g n s v l) (hl : l.length ≤ 1) :
    v = s := by
  obtain ⟨h1, h2, -⟩ := h
  cases l with
  | nil => cases h1
  | cons a t =>
    cases t with
    | nil =>
      simp only [List.head?_cons, Option.some.injEq] at h1
      simp only [List.getLast?_singleton, Option.some.injEq] at h2
      rw [← h2, h1]
    | cons b t' => simp at hl

theorem pathTo_snoc {g : MazeGrid} {n : Nat} {s v : Nat × Nat}
    {l : List (Nat × Nat)} (h : PathTo g n s v l) (hl : 2 ≤ l.length) :
    ∃ (r : Nat × Nat) (l' : List (Nat × Nat)), l = l' ++ [v] ∧
      PathTo g n s r l' ∧ openStep g n r v ∧ l'.length + 1 = l.length := by
  obtain ⟨h1, h2, h3⟩ := h
  have hne : l ≠ [] := by
    intro hc
    rw [hc] at h1
    cases h1
  have hd := List.dropLast_append_getLast hne
  have hvlast : l.getLast hne = v := by
    have hq := List.getLast?_eq_getLast l hne
    rw [h2] at hq
    exact (Option.some.inj hq).symm
  have hlen' : l.dropLast.length = l.length - 1 := List.length_dropLast l
  have hne' : l.dropLast ≠ [] := by
    rw [← List.length_pos]
    omega
  have hlast' : l.dropLast.getLast? = some (l.dropLast.getLast hne') :=
    List.getLast?_eq_getLast _ hne'
  have hhead' : l.dropLast.head? = l.head? := by
    cases l with
    | nil => exact absurd rfl hne
    | cons a t =>
      cases t with
      | nil => simp at hl
      | cons b t' => rfl
  have hsplit : List.Chain' (openStep g n) (l.dropLast ++ [l.getLast hne]) := by
    rw [hd]
    exact h3
  obtain ⟨hc1, hc2, hrel⟩ := List.chain'_append.mp hsplit
  refine ⟨l.dropLast.getLast hne', l.dropLast, ?_, ⟨?_, hlast', hc1⟩, ?_, ?_⟩
  · rw [← hvlast]
    exact hd.symm
  · rw [hhead']
    exact h1
  · have hstep := hrel (l.dropLast.getLast hne') hlast' (l.getLast hne) rfl
    rw [hvlast] at hstep
    exact hstep
  · omega

/-! # Reconstruction follows the predecessor chain -/

theorem reconstruct_traces {g : MazeGrid} {n : Nat} {m : VisMap}
    {s : Nat × Nat} :
    ∀ {k : Nat × Nat} {j : Nat}, Traces g n m s k j → ∀ {fuel : Nat}, j < fuel →
      PathTo g n s k (reconstruct m k fuel) ∧
        (reconstruct m k fuel).length = j + 1 := by
  intro k j h
  induction h with
  | base hs =>
    intro fuel hf
    cases fuel with
    | zero => cases hf
    | succ f =>
      have hred : reconstruct m s (f + 1) = [s] := by
        unfold reconstruct
        rw [hs]
      rw [hred]
      exact ⟨⟨rfl, rfl, List.chain'_singleton s⟩, rfl⟩
  | step k' p j hl ht ho ih =>
    intro fuel hf
    cases fuel with
    | zero => cases hf
    | succ f =>
      have hred : reconstruct m k' (f + 1) = reconstruct m p f ++ [k'] := by
        conv_lhs => rw [reconstruct, hl]
      obtain ⟨⟨hh, hlast, hchain⟩, hlen⟩ := ih (by omega : j < f)
      rw [hred]
      have hne : reconstruct m p f ≠ [] := by
        intro hc
        rw [hc] at hlen
        cases hlen
      refine ⟨⟨?_, ?_, ?_⟩, ?_⟩
      · cases hll : reconstruct m p f with
        | nil => exact absurd hll hne
        | cons a t =>
          rw [hll] at hh
          simp only [List.cons_append, List.head?_cons] at hh ⊢
          exact hh
      · exact List.getLast?_concat _
      · refine List.chain'_append.mpr ⟨hchain, List.chain'_singleton _, ?_⟩
        intro x hx y hy
        have hxp : x = p := by
          rw [hlast] at hx
          simpa using hx.symm
        have hyk : y = k' := by
          simpa using hy.symm
        rw [hxp, hyk]
        exact ho
      · rw [List.length_append, hlen]
        rfl

/-! # Normalizing the breadth-first layering on a nonempty queue -/

theorem bfsSound_norm {g : MazeGrid} {n : Nat} {s : Nat × Nat} {nd : BfsNode}
    {rest : List BfsNode} {m : VisMap}
    (inv : BfsSound g n s (nd :: rest) m) :
    ∃ d q1 q2, nd :: rest = q1 ++ q2 ∧ q1 ≠ [] ∧
      (∀ nd' ∈ q1, nd'.dist = d) ∧ (∀ nd' ∈ q2, nd'.dist = d + 1) ∧
      (∀ v l, PathTo g n s v l → l.length ≤ d →
        lookupV m v ≠ none ∧ v ∉ queueCoords (nd :: rest)) ∧
      ∀ v l, PathTo g n s v l → l.length ≤ d + 1 → lookupV m v ≠ none := by
  obtain ⟨d, q1, q2, hq, hd1, hd2, hT5a, hT5b⟩ := inv.sorted
  cases q1 with
  | cons a t =>
    exact ⟨d, a :: t, q2, hq, by simp, hd1, hd2, hT5a, hT5b⟩
  | nil =>
    rw [List.nil_append] at hq
    subst hq
    have hA : ∀ v l, PathTo g n s v l → l.length ≤ d + 1 →
        lookupV m v ≠ none ∧ v ∉ queueCoords (nd :: rest) := by
      intro v l hpv hlen
      refine ⟨hT5b v l hpv hlen, ?_⟩
      intro hvq
      unfold queueCoords at hvq
      rw [List.mem_map] at hvq
      obtain ⟨nd', hmem, hco⟩ := hvq
      have htr := inv.queueChain nd' hmem
      rw [hd2 nd' hmem, hco] at htr
      have := inv.chainMin v (d + 1) htr l hpv
      omega
    have hBnew : ∀ v l, PathTo g n s v l → l.length ≤ d + 1 + 1 →
        lookupV m v ≠ none := by
      intro v l hpv hlen
      by_cases hsmall : l.length ≤ 1
      · rw [pathTo_single hpv hsmall, inv.startKey]
        exact Option.some_ne_none _
      · obtain ⟨r, l', heq, hpr, hstep, hlen'⟩ :=
          pathTo_snoc hpv (by omega : 2 ≤ l.length)
        obtain ⟨hrk, hrq⟩ := hA r l' hpr (by omega)
        exact inv.expandedClosed r hrk hrq v hstep
    exact ⟨d + 1, nd :: rest, [], (List.append_nil _).symm, by simp,
      hd2, by simp, hA, hBnew⟩

/-! # Preservation of the soundness invariant through one expansion -/

theorem bfsSound_step {g : MazeGrid} {n : Nat} {s : Nat × Nat} {nd : BfsNode}
    {rest : List BfsNode} {m : VisMap}
    (inv : BfsSound g n s (nd :: rest) m) :
    BfsSound g n s (bfsExpand g n nd.x nd.y nd.dist rest m).1
      (bfsExpand g n nd.x nd.y nd.dist rest m).2 := by
  obtain ⟨news, hq, hsz, hpres, hnews, hconv, hndp, hcnd⟩ :=
    pushes_spec (bfsExpand_pushes g n nd.x nd.y nd.dist rest m)
  have hq' : (bfsExpand g n nd.x nd.y nd.dist rest m).1 = rest ++ news := hq
  have hsz' : sizeV (bfsExpand g n nd.x nd.y nd.dist rest m).2 =
      sizeV m + news.length := hsz
  have hptr : Traces g n m s (nd.x, nd.y) nd.dist :=
    inv.queueChain nd (List.mem_cons_self _ _)
  have hpk : lookupV m (nd.x, nd.y) ≠ none := traces_mem hptr
  have hnews2 : ∀ k, lookupV m k = none →
      lookupV (bfsExpand g n nd.x nd.y nd.dist rest m).2 k ≠ none →
      lookupV (bfsExpand g n nd.x nd.y nd.dist rest m).2 k =
        some (some (nd.x, nd.y)) := by
    intro k h1 h2
    obtain ⟨nd', hmem, hco⟩ := hconv k h1 h2
    rw [← hco]
    exact (hnews nd' hmem).2.2.1
  obtain ⟨d, q1, q2, hqd, hq1ne, hd1, hd2, hA, hB⟩ := bfsSound_norm inv
  obtain ⟨t, rfl⟩ : ∃ t, q1 = nd :: t := by
    cases q1 with
    | nil => exact absurd rfl hq1ne
    | cons a l =>
      rw [List.cons_append] at hqd
      exact ⟨l, by rw [(List.cons_eq_cons.mp hqd).1]⟩
  have hrest : rest = t ++ q2 := by
    rw [List.cons_append] at hqd
    exact (List.cons_eq_cons.mp hqd).2
  have hndd : nd.dist = d := hd1 nd (List.mem_cons_self _ _)
  have hdsz : d + 1 ≤ sizeV m := by
    obtain ⟨j, trj, hj⟩ := inv.chainEx (nd.x, nd.y) hpk
    have := traces_fun trj hptr
    omega
  have hnewTr : ∀ nd' ∈ news,
      Traces g n (bfsExpand g n nd.x nd.y nd.dist rest m).2 s
        (nd'.x, nd'.y) (nd.dist + 1) := by
    intro nd' hmem
    obtain ⟨hdd, hfresh, hval, hstep⟩ := hnews nd' hmem
    exact Traces.step (nd'.x, nd'.y) (nd.x, nd.y) nd.dist hval
      (traces_lift hpres hptr) hstep
  have hrestKey : ∀ a ∈ queueCoords rest, lookupV m a ≠ none := by
    intro a ha
    unfold queueCoords at ha
    rw [List.mem_map] at ha
    obtain ⟨nd', hmem, hco⟩ := ha
    rw [← hco]
    exact traces_mem (inv.queueChain nd' (List.mem_cons_of_mem _ hmem))
  have hnewsFresh : ∀ a ∈ queueCoords news, lookupV m a = none := by
    intro a ha
    unfold queueCoords at ha
    rw [List.mem_map] at ha
    obtain ⟨nd', hmem, hco⟩ := ha
    rw [← hco]
    exact (hnews nd' hmem).2.1
  constructor
  · exact hndp inv.keysNodup
  · rw [hpres s (by rw [inv.startKey]; exact Option.some_ne_none _)]
    exact inv.startKey
  · intro k hk
    rcases Option.eq_none_or_eq_some (lookupV m k) with hn | ⟨v, hv⟩
    · have := hnews2 k hn (by rw [hk]; exact Option.some_ne_none _)
      rw [hk] at this
      simp at this
    · refine inv.rootUnique k ?_
      rw [← hpres k (by rw [hv]; exact Option.some_ne_none _), hk]
  · intro k p hk
    rcases Option.eq_none_or_eq_some (lookupV m k) with hn | ⟨v, hv⟩
    · have hval := hnews2 k hn (by rw [hk]; exact Option.some_ne_none _)
      rw [hk] at hval
      have hp : p = (nd.x, nd.y) := by simpa using hval
      rw [hp, hpres (nd.x, nd.y) hpk]
      exact hpk
    · have hk' : lookupV m k = some (some p) := by
        rw [← hpres k (by rw [hv]; exact Option.some_ne_none _), hk]
      have := inv.predsKeys k p hk'
      rw [hpres p this]
      exact this
  · intro k hk
    rcases Option.eq_none_or_eq_some (lookupV m k) with hn | ⟨v, hv⟩
    · obtain ⟨nd', hmem, hco⟩ := hconv k hn hk
      have hne : news ≠ [] := by
        intro hc
        rw [hc] at hmem
        cases hmem
      have hlen : 0 < news.length := List.length_pos.mpr hne
      refine ⟨nd.dist + 1, ?_, by omega⟩
      rw [← hco]
      exact hnewTr nd' hmem
    · obtain ⟨j, trj, hj⟩ := inv.chainEx k (by rw [hv]; exact Option.some_ne_none _)
      exact ⟨j, traces_lift hpres trj, by omega⟩
  · intro k j trj
    rcases traces_back hpres hnews2 hpk hptr inv.startKey inv.predsKeys trj with
      ⟨hmem, trm⟩ | ⟨hnone, hj⟩
    · exact inv.chainMin k j trm
    · intro l hl
      by_cases hlen : l.length ≤ d + 1
      · exact absurd (hB k l hl hlen) (by rw [hnone]; intro hc; exact hc rfl)
      · omega
  · intro nd' hmem
    rw [hq'] at hmem
    rcases List.mem_append.mp hmem with hmem | hmem
    · exact traces_lift hpres (inv.queueChain nd' (List.mem_cons_of_mem _ hmem))
    · rw [(hnews nd' hmem).1]
      exact hnewTr nd' hmem
  · rw [hq']
    have hmapp : queueCoords (rest ++ news) =
        queueCoords rest ++ queueCoords news := by
      unfold queueCoords
      rw [List.map_append]
    rw [hmapp]
    refine List.Nodup.append ?_ hcnd ?_
    · have := inv.queueNodup
      unfold queueCoords at this ⊢
      rw [List.map_cons] at this
      exact this.of_cons
    · intro a ha hb
      exact absurd (hnewsFresh a hb) (hrestKey a ha)
  · intro k hk hkq t1 hstep
    by_cases hknd : k = (nd.x, nd.y)
    · subst hknd
      have := bfsExpand_covers g n nd.x nd.y nd.dist rest m t1 hstep
      exact Option.isSome_iff_ne_none.mp this
    · rcases Option.eq_none_or_eq_some (lookupV m k) with hn | ⟨v, hv⟩
      · obtain ⟨nd', hmem, hco⟩ := hconv k hn hk
        exfalso
        refine hkq ?_
        rw [hq']
        unfold queueCoords
        rw [List.map_append, List.mem_append]
        refine Or.inr ?_
        rw [List.mem_map]
        exact ⟨nd', hmem, hco⟩
      · have hkm : lookupV m k ≠ none := by
          rw [hv]
          exact Option.some_ne_none _
        have hknq : k ∉ queueCoords (nd :: rest) := by
          intro hc
          unfold queueCoords at hc
          rw [List.map_cons, List.mem_cons] at hc
          rcases hc with hc | hc
          · exact hknd hc
          · refine hkq ?_
            rw [hq']
            unfold queueCoords
            rw [List.map_append, List.mem_append]
            exact Or.inl hc
        have := inv.expandedClosed k hkm hknq t1 hstep
        rw [hpres t1 this]
        exact this
  · refine ⟨d, t, q2 ++ news, ?_, ?_, ?_, ?_, ?_⟩
    · rw [hq', hrest, List.append_assoc]
    · intro nd' hmem
      exact hd1 nd' (List.mem_cons_of_mem _ hmem)
    · intro nd' hmem
      rcases List.mem_append.mp hmem with hmem | hmem
      · exact hd2 nd' hmem
      · rw [(hnews nd' hmem).1, hndd]
    · intro v l hl hlen
      obtain ⟨hvk, hvq⟩ := hA v l hl hlen
      refine ⟨by rw [hpres v hvk]; exact hvk, ?_⟩
      intro hc
      rw [hq'] at hc
      unfold queueCoords at hc
      rw [List.map_append, List.mem_append] at hc
      rcases hc with hc | hc
      · refine hvq ?_
        unfold queueCoords
        rw [List.map_cons, List.mem_cons]
        exact Or.inr hc
      · exact absurd (hnewsFresh v hc) hvk
    · intro v l hl hlen
      have := hB v l hl hlen
      rw [hpres v this]
      exact this

theorem bfsLoop_sound {g : MazeGrid} {n ex ey : Nat} {s : Nat × Nat} :
    ∀ (fuel : Nat) (queue : List BfsNode) (m : VisMap),
      BfsSound g n s queue m →
      bfsLoop g n ex ey fuel queue m ≠ [] →
      PathTo g n s (ex, ey) (bfsLoop g n ex ey fuel queue m) ∧
        ∀ l, PathTo g n s (ex, ey) l →
          (bfsLoop g n ex ey fuel queue m).length ≤ l.length := by
  intro fuel
  induction fuel with
  | zero =>
    intro queue m _ hne
    exact absurd rfl hne
  | succ fuel ih =>
    intro queue m inv hne
    cases queue with
    | nil => exact absurd rfl hne
    | cons nd rest =>
      by_cases hend : nd.x = ex ∧ nd.y = ey
      · have hred : bfsLoop g n ex ey (fuel + 1) (nd :: rest) m =
            reconstruct m (nd.x, nd.y) (sizeV m + 1) := by
          rw [bfsLoop, if_pos hend]
        have hptr : Traces g n m s (nd.x, nd.y) nd.dist :=
          inv.queueChain nd (List.mem_cons_self _ _)
        have hdsz : nd.dist + 1 ≤ sizeV m := by
          obtain ⟨j, trj, hj⟩ := inv.chainEx (nd.x, nd.y) (traces_mem hptr)
          have := traces_fun trj hptr
          omega
        obtain ⟨hpath, hlen⟩ :=
          reconstruct_traces hptr (by omega : nd.dist < sizeV m + 1)
        have hco : (nd.x, nd.y) = (ex, ey) := by
          rw [hend.1, hend.2]
        rw [hred, ← hco]
        refine ⟨hpath, ?_⟩
        intro l hl
        have := inv.chainMin (nd.x, nd.y) nd.dist hptr l hl
        omega
      · have hred : bfsLoop g n ex ey (fuel + 1) (nd :: rest) m =
            bfsLoop g n ex ey fuel (bfsExpand g n nd.x nd.y nd.dist rest m).1
              (bfsExpand g n nd.x nd.y nd.dist rest m).2 := by
          rw [bfsLoop, if_neg hend]
        rw [hred] at hne ⊢
        exact ih _ _ (bfsSound_step inv) hne

/-- The soundness invariant holds for the initial BFS state: the queue
holds only the start node at distance 0 and the map binds the start key to
the `null` predecessor (lines 158-160). -/
theorem bfsSound_init (g : MazeGrid) (n sx sy : Nat) :
    BfsSound g n (sx, sy) [⟨sx, sy, 0⟩] [((sx, sy), none)] := by
  have hstart : lookupV [((sx, sy), none)] (sx, sy) = some none := by
    rw [lookupV_cons, if_pos rfl]
  have hlk : ∀ k, lookupV [((sx, sy), none)] k ≠ none → k = (sx, sy) := by
    intro k hk
    by_cases h : k = (sx, sy)
    · exact h
    · exfalso
      refine hk ?_
      rw [lookupV_cons, if_neg h]
      rfl
  have hnp : ∀ k p, lookupV [((sx, sy), none)] k ≠ some (some p) := by
    intro k p hk
    by_cases h : k = (sx, sy)
    · subst h
      rw [hstart] at hk
      simp at hk
    · rw [lookupV_cons, if_neg h] at hk
      simp [lookupV] at hk
  have htr0 : ∀ k j, Traces g n [((sx, sy), none)] (sx, sy) k j → j = 0 := by
    intro k j tr
    cases tr with
    | base _ => rfl
    | step k' p j' hl ht ho => exact absurd hl (hnp _ p)
  constructor
  · simp [keysOf]
  · exact hstart
  · intro k hk
    exact hlk k (by rw [hk]; exact Option.some_ne_none _)
  · intro k p hk
    exact absurd hk (hnp k p)
  · intro k hk
    rw [hlk k hk]
    exact ⟨0, Traces.base hstart, by simp [sizeV]⟩
  · intro k j tr l hl
    rw [htr0 k j tr]
    have h1 : 1 ≤ l.length := List.length_pos.mpr (pathTo_ne_nil hl)
    omega
  · intro nd hnd
    rw [List.mem_singleton] at hnd
    subst hnd
    exact Traces.base hstart
  · simp [queueCoords]
  · intro k hk hkq
    exfalso
    refine hkq ?_
    rw [hlk k hk]
    simp [queueCoords]
  · refine ⟨0, [⟨sx, sy, 0⟩], [], by simp, ?_, by simp, ?_, ?_⟩
    · intro nd hnd
      rw [List.mem_singleton] at hnd
      subst hnd
      rfl
    · intro v l hl hlen
      have h1 : 1 ≤ l.length := List.length_pos.mpr (pathTo_ne_nil hl)
      omega
    · intro v l hl hlen
      rw [pathTo_single hl hlen, hstart]
      exact Option.some_ne_none _

/-! # Claim C5: soundness and minimality of the solver's result -/

/-- C5: whenever `findPath` returns a non-empty sequence, that sequence
starts at the start coordinate, ends at the end coordinate, each
consecutive pair is an open adjacency of the solver (the wall between the
two cells is absent and the move stays inside the grid), and its length is
minimal: no route between the same start and end following the solver's
open adjacencies is strictly shorter. -/
theorem findPath_spec (g : MazeGrid) (n sx sy ex ey : Nat)
    (h : findPath g n sx sy ex ey ≠ []) :
    (findPath g n sx sy ex ey).head? = some (sx, sy) ∧
      (findPath g n sx sy ex ey).getLast? = some (ex, ey) ∧
      List.Chain' (openStep g n) (findPath g n sx sy ex ey) ∧
      ∀ l, PathTo g n (sx, sy) (ex, ey) l →
        (findPath g n sx sy ex ey).length ≤ l.length := by
  have h' : bfsLoop g n ex ey (n * n + 1) [⟨sx, sy, 0⟩]
      [((sx, sy), none)] ≠ [] := h
  obtain ⟨⟨h1, h2, h3⟩, hmin⟩ :=
    bfsLoop_sound (n * n + 1) [⟨sx, sy, 0⟩] [((sx, sy), none)]
      (bfsSound_init g n sx sy) h'
  exact ⟨h1, h2, h3, hmin⟩

/-- Witness for C5 on the all-walls 1×1 grid with coinciding endpoints. -/
theorem findPath_spec_witness :
    findPath initGrid 1 0 0 0 0 ≠ [] ∧
      ((findPath initGrid 1 0 0 0 0).head? = some (0, 0) ∧
        (findPath initGrid 1 0 0 0 0).getLast? = some (0, 0) ∧
        List.Chain' (openStep initGrid 1) (findPath initGrid 1 0 0 0 0) ∧
        ∀ l, PathTo initGrid 1 (0, 0) (0, 0) l →
          (findPath initGrid 1 0 0 0 0).length ≤ l.length) :=
  ⟨by decide, findPath_spec initGrid 1 0 0 0 0 (by decide)⟩
